import Mathlib

/-!
Verification of the bug-finder program (src/main.py).

The program counts occurrences of a multi-line glyph pattern (a bug shape)
inside a multi-line text grid (a landscape).  Shape rows are compiled to
lookahead regular expressions; a streaming engine keeps a nested
defaultdict match table, applies two pruning rules, and retires consumed
matches when an occurrence is counted.

This file is a shallow embedding of that program: strings are lists of
characters, the nested defaultdict is a function with explicit key
presence, and exceptions are an explicit error type.
-/

/-- Characters stripped by python 2 str.rstrip() and matched by the regex
class backslash-s: space, tab, newline, carriage return, vertical tab and
form feed. -/
def isPySpace (c : Char) : Bool :=
  c == ' ' || c == '\t' || c == '\n' || c == '\r' || c == '\x0b' || c == '\x0c'

/-- python str.rstrip(): drop trailing whitespace (File.reader line 85). -/
def rstrip (l : List Char) : List Char :=
  (l.reverse.dropWhile isPySpace).reverse

/-- A processed input line: File.Line (src/main.py lines 90-125).
The id is the zero-based index of the line in the raw file (ints in
python), the pattern its text after rstrip. -/
structure Line where
  id : Int
  pattern : List Char
deriving DecidableEq

/-- One step of File.reader: strip the line, keep it (with its enumerate
index as id) unless it became empty. -/
def readerLine (li : Nat × List Char) : Option Line :=
  let p := rstrip li.2
  if p.isEmpty then none else some { id := (li.1 : Int), pattern := p }

/-- File.reader (src/main.py lines 73-88): enumerate the raw lines, strip
trailing whitespace, skip lines that become empty.  Kept line ids are the
original indices, so omitted blank lines leave gaps. -/
def reader (ls : List (List Char)) : List Line :=
  ls.enum.filterMap readerLine

/-- One constraint of a compiled shape row: a literal character at a
relative offset, or a run of N arbitrary characters. -/
inductive Constraint where
  | lit (c : Char)
  | skip (n : Nat)
deriving DecidableEq

/-- Semantics of the compiled remainder of a shape row
(Bug.Part._format_pattern, src/main.py lines 191-211).

The source computes escape(rest, except_chars=' ') and then substitutes
every maximal whitespace run of the escaped string by .{n}
(_format_bug_replace_match_with_regex, lines 213-228).  escape backslash-
escapes every non-alphanumeric character except the space, which makes
every escaped character a regex literal.  Consequences, reproduced here:

* a maximal run of n spaces is left unescaped, is matched whole by the
  substitution and becomes .{n} - a skip of n arbitrary characters;
* a non-space whitespace character w is escaped to backslash-w; the
  substitution then replaces the whitespace chunk starting at w, that is
  w together with the spaces immediately following it (a later non-space
  whitespace character carries its own backslash and starts a new chunk),
  by .{k}; the preceding backslash now escapes the dot, so the chunk
  compiles to k literal dot characters, not to a skip;
* every other character is a regex literal matching itself (escape leaves
  alphanumerics bare and backslash-escapes the rest; the escaped null
  character becomes the octal escape for the null character).

The boolean flag records being inside such a literal-dot chunk, where
following spaces still belong to the chunk and also compile to literal
dots rather than starting a skip run.
-/
def parseRestGo : Bool → List Char → List Constraint
  | _, [] => []
  | inDot, c :: rest =>
    if c = ' ' then
      if inDot then Constraint.lit '.' :: parseRestGo true rest
      else
        match parseRestGo false rest with
        | Constraint.skip n :: cs => Constraint.skip (n + 1) :: cs
        | cs => Constraint.skip 1 :: cs
    else if isPySpace c then Constraint.lit '.' :: parseRestGo true rest
    else Constraint.lit c :: parseRestGo false rest

/-- The compiled remainder of a shape row, starting outside any
whitespace chunk. -/
def parseRest (l : List Char) : List Constraint :=
  parseRestGo false l

/-- Bug.Part._format_pattern (src/main.py lines 191-211): an empty row
yields no pattern (the python function falls through and returns None);
a non-empty row compiles to its escaped first character - a literal
anchor - and a lookahead holding the compiled remainder. -/
def format_pattern (p : List Char) : Option (Char × List Constraint) :=
  match p with
  | [] => none
  | c :: rest => some (c, parseRest rest)

/-- A compiled shape row: Bug.Part (src/main.py lines 165-228).  The id is
inherited from the File.Line the part was built from; the pattern is the
compiled form stored by the pattern setter. -/
structure Bug.Part where
  id : Int
  pattern : Option (Char × List Constraint)
deriving DecidableEq

/-- Bug._read_bug (src/main.py lines 160-163): the shape is the list of
parts built from the reader's lines. -/
def read_bug (rows : List (List Char)) : List Bug.Part :=
  (reader rows).map fun line => { id := line.id, pattern := format_pattern line.pattern }

/-- Does the constraint list hold in target t starting at offset p?  This
is the semantics of the lookahead body: a literal requires that exact
character at the offset, a skip of n requires n characters of any value
to exist.  Running past the end of the target fails the match. -/
def constraintsMatch : List Constraint → List Char → Nat → Bool
  | [], _, _ => true
  | Constraint.lit c :: cs, t, p =>
    if p < t.length then (t.getD p ' ' == c) && constraintsMatch cs t (p + 1) else false
  | Constraint.skip n :: cs, t, p =>
    if p + n ≤ t.length then constraintsMatch cs t (p + n) else false

/-- Does the compiled row (anchor a, lookahead cs) match target t at
column c?  The anchor consumes one character; the lookahead is tested
from the next offset without consuming anything. -/
def matchesAt (a : Char) (cs : List Constraint) (t : List Char) (c : Nat) : Bool :=
  if c < t.length then (t.getD c ' ' == a) && constraintsMatch cs t (c + 1) else false

/-- re.finditer scanning: the regex engine tries each position in order;
a match of the compiled row consumes exactly one character (the anchor -
the lookahead is zero-width), so scanning resumes at the next column and
overlapping candidates are all tried.  The first argument counts the
candidate positions still to try. -/
def finditerGo (a : Char) (cs : List Constraint) (t : List Char) :
    Nat → Nat → List Nat
  | 0, _ => []
  | rem + 1, p =>
    if matchesAt a cs t p then p :: finditerGo a cs t rem (p + 1)
    else finditerGo a cs t rem (p + 1)

/-- All match start positions of the compiled row in target t, in the
order produced by re.finditer (src/main.py line 446): candidate start
positions are the columns of t, tried left to right. -/
def finditer (a : Char) (cs : List Constraint) (t : List Char) : List Nat :=
  finditerGo a cs t t.length 0

/-- Failures the engine can raise while scanning a landscape:
a TypeError from handing re.finditer a None pattern (only possible for a
part compiled from an empty row), or a ValueError from list.remove when
deregister_bug_match retires a position that is not registered. -/
inductive EngineError where
  | typeError
  | valueError
deriving DecidableEq

/-- The nested defaultdict self._bug_part_matches
{line_number: {bug_part_id: [bug_part_match_position]}} (src/main.py
line 259).  A key pair maps to none when the inner key is absent and to
some positions when present; membership of the outer key alone is never
observed by the program, so it is not tracked. -/
def MatchTable : Type := Int → Int → Option (List Nat)

/-- The positions list for a key pair, empty when the key is absent -
the value python reads through the defaultdict. -/
def getEntry (t : MatchTable) (ln i : Int) : List Nat :=
  (t ln i).getD []

/-- Reading t[ln][i] through the nested defaultdict creates the inner key
with an empty list when it is absent; contents are unchanged. -/
def touchEntry (t : MatchTable) (ln i : Int) : MatchTable :=
  fun ln' i' => if ln' = ln ∧ i' = i then some (getEntry t ln i) else t ln' i'

/-- Writing the positions list of a key pair. -/
def setEntry (t : MatchTable) (ln i : Int) (l : List Nat) : MatchTable :=
  fun ln' i' => if ln' = ln ∧ i' = i then some l else t ln' i'

/-- python list.remove(v): delete the first occurrence of v, or fail with
ValueError (none) when v is absent. -/
def removeFirst : List Nat → Nat → Option (List Nat)
  | [], _ => none
  | x :: xs, v => if x = v then some xs else (removeFirst xs v).map (x :: ·)

/-- The BugFinder object state (src/main.py lines 244-317): the bug
shape, the match table and the running count. -/
structure BugFinder where
  bug : List Bug.Part
  bug_part_matches : MatchTable
  bug_count : Nat

/-- BugFinder.bug_part_match_exists (src/main.py lines 319-331): whether
the inner key bug_part.id is present in the line's inner dict.  Note
this is key presence, not list non-emptiness. -/
def bug_part_match_exists (s : BugFinder) (bug_part : Bug.Part) (landscape_line : Line) : Bool :=
  (s.bug_part_matches landscape_line.id bug_part.id).isSome

/-- BugFinder.register_bug_part_match (src/main.py lines 333-347):
append the match position to the key pair's list, creating it if
absent. -/
def register_bug_part_match (s : BugFinder) (bug_part : Bug.Part) (landscape_line : Line)
    (bug_part_match_position : Nat) : BugFinder :=
  let t := s.bug_part_matches
  let e := getEntry t landscape_line.id bug_part.id
  { s with bug_part_matches :=
      setEntry t landscape_line.id bug_part.id (e ++ [bug_part_match_position]) }

/-- The loop body of BugFinder.deregister_bug_match: for each part of
the reversed shape, remove the position from the part's list at the
current line number, then step one line up.  The defaultdict access
creates the key if absent, and list.remove then raises ValueError. -/
def deregisterAux (pos : Nat) : List Bug.Part → Int → MatchTable → Except EngineError MatchTable
  | [], _, t => .ok t
  | part :: rest, ln, t =>
    match removeFirst (getEntry t ln part.id) pos with
    | none => .error .valueError
    | some l => deregisterAux pos rest (ln - 1) (setEntry t ln part.id l)

/-- BugFinder.deregister_bug_match (src/main.py lines 349-365). -/
def deregister_bug_match (s : BugFinder) (landscape_line : Line)
    (bug_part_match_position : Nat) : Except EngineError BugFinder :=
  (deregisterAux bug_part_match_position s.bug.reverse landscape_line.id
      s.bug_part_matches).map
    fun t => { s with bug_part_matches := t }

/-- BugFinder.should_skip_all_bug_parts_in_line (src/main.py lines
367-385): in the first lines (line id at most the part id), break the
part loop when the part has no registered match key in the line. -/
def should_skip_all_bug_parts_in_line (s : BugFinder) (bug_part : Bug.Part)
    (landscape_line : Line) : Bool :=
  if landscape_line.id - bug_part.id ≤ 0 then
    !(bug_part_match_exists s bug_part landscape_line)
  else false

/-- BugFinder.should_skip_bug_part_in_line (src/main.py lines 387-404):
skip the part when the key bug_part.id - 1 is absent from the inner dict
of line id - 1 (both only when non-negative). -/
def should_skip_bug_part_in_line (s : BugFinder) (bug_part : Bug.Part)
    (landscape_line : Line) : Bool :=
  if landscape_line.id - 1 ≥ 0 ∧ bug_part.id - 1 ≥ 0 then
    (s.bug_part_matches (landscape_line.id - 1) (bug_part.id - 1)).isNone
  else false

/-- The loop body of BugFinder.bug_part_match_belongs_to_a_bug: walk the
shape minus its last part in reverse, stepping the line number down
before each check; each membership test reads the key pair through the
defaultdict, creating an empty entry when it is absent (a side effect on
the table), and the walk stops at the first missing position. -/
def belongsAux (pos : Nat) : List Bug.Part → Int → MatchTable → Bool × MatchTable
  | [], _, t => (true, t)
  | part :: rest, ln, t =>
    let e := getEntry t (ln - 1) part.id
    let t' := touchEntry t (ln - 1) part.id
    if pos ∈ e then belongsAux pos rest (ln - 1) t' else (false, t')

/-- BugFinder.bug_part_match_belongs_to_a_bug (src/main.py lines
406-433): only a part whose id equals the last shape part's id is
checked; all earlier parts must hold the position at the preceding
lines.  (The python indexing shape[-1] presupposes a non-empty shape; it
is only ever called from the loop over the shape's parts, hence with a
non-empty shape, where this definition agrees with it.) -/
def bug_part_match_belongs_to_a_bug (s : BugFinder) (bug_part : Bug.Part)
    (landscape_line : Line) (bug_part_match_position : Nat) : Bool × MatchTable :=
  match (s.bug.map Bug.Part.id).getLast? with
  | some lastId =>
    if bug_part.id = lastId then
      belongsAux bug_part_match_position s.bug.dropLast.reverse landscape_line.id
        s.bug_part_matches
    else (false, s.bug_part_matches)
  | none => (false, s.bug_part_matches)

/-- One iteration of the match loop of
BugFinder.find_bug_part_and_bugs_in_landscape_line: register the match,
test whether it completes a bug (a test with a side effect on the
table), and on success increment the count and retire the bug's
cells. -/
def processOneMatch (bug_part : Bug.Part) (landscape_line : Line) (pos : Nat)
    (s : BugFinder) : Except EngineError BugFinder :=
  let s1 := register_bug_part_match s bug_part landscape_line pos
  let b := bug_part_match_belongs_to_a_bug s1 bug_part landscape_line pos
  if b.1 then
    deregister_bug_match
      { bug := s1.bug, bug_part_matches := b.2, bug_count := s1.bug_count + 1 }
      landscape_line pos
  else .ok { bug := s1.bug, bug_part_matches := b.2, bug_count := s1.bug_count }

/-- The match loop of BugFinder.find_bug_part_and_bugs_in_landscape_line
over the positions produced by re.finditer. -/
def processMatches (bug_part : Bug.Part) (landscape_line : Line) :
    List Nat → BugFinder → Except EngineError BugFinder
  | [], s => .ok s
  | pos :: rest, s =>
    match processOneMatch bug_part landscape_line pos s with
    | .error e => .error e
    | .ok s' => processMatches bug_part landscape_line rest s'

/-- BugFinder.find_bug_part_and_bugs_in_landscape_line (src/main.py
lines 435-453).  A part holding no compiled pattern (only possible for
an empty row) makes re.finditer raise TypeError. -/
def find_bug_part_and_bugs_in_landscape_line (s : BugFinder) (bug_part : Bug.Part)
    (landscape_line : Line) : Except EngineError BugFinder :=
  match bug_part.pattern with
  | none => .error .typeError
  | some (a, cs) =>
    processMatches bug_part landscape_line (finditer a cs landscape_line.pattern) s

/-- The part loop of BugFinder.find_bugs_in_landscape for one landscape
line: skip a part on pruning rule 1 (continue), otherwise process it and
break the loop on pruning rule 2. -/
def processParts (landscape_line : Line) :
    List Bug.Part → BugFinder → Except EngineError BugFinder
  | [], s => .ok s
  | bug_part :: rest, s =>
    if should_skip_bug_part_in_line s bug_part landscape_line then
      processParts landscape_line rest s
    else
      match find_bug_part_and_bugs_in_landscape_line s bug_part landscape_line with
      | .error e => .error e
      | .ok s' =>
        if should_skip_all_bug_parts_in_line s' bug_part landscape_line then .ok s'
        else processParts landscape_line rest s'

/-- The line loop of BugFinder.find_bugs_in_landscape. -/
def processLines : List Line → BugFinder → Except EngineError BugFinder
  | [], s => .ok s
  | line :: rest, s =>
    match processParts line s.bug s with
    | .error e => .error e
    | .ok s' => processLines rest s'

/-- BugFinder.find_bugs_in_landscape (src/main.py lines 455-466), run on
a shape and the reader's lines of a landscape, starting from a fresh
BugFinder (empty table, zero count). -/
def find_bugs_in_landscape (bug : List Bug.Part) (landscape : List Line) :
    Except EngineError BugFinder :=
  processLines landscape { bug := bug, bug_part_matches := fun _ _ => none, bug_count := 0 }

/-- The externally observed result: the final bug count of a full run of
find_bugs_in_landscape over the files' processed lines. -/
def bugCountResult (bugRows landscapeRows : List (List Char)) : Except EngineError Nat :=
  (find_bugs_in_landscape (read_bug bugRows) (reader landscapeRows)).map BugFinder.bug_count

/-- The spec's disabled-pruning engine (spec section 9, open question):
find_bugs_in_landscape with should_skip_bug_part_in_line and
should_skip_all_bug_parts_in_line treated as always returning false, so
every part is evaluated against every line; everything else is
unchanged.  This is the comparison point for treating both rules as pure
performance pruning. -/
def processPartsNoPruning (landscape_line : Line) :
    List Bug.Part → BugFinder → Except EngineError BugFinder
  | [], s => .ok s
  | bug_part :: rest, s =>
    match find_bug_part_and_bugs_in_landscape_line s bug_part landscape_line with
    | .error e => .error e
    | .ok s' => processPartsNoPruning landscape_line rest s'

/-- Line loop of the disabled-pruning engine. -/
def processLinesNoPruning : List Line → BugFinder → Except EngineError BugFinder
  | [], s => .ok s
  | line :: rest, s =>
    match processPartsNoPruning line s.bug s with
    | .error e => .error e
    | .ok s' => processLinesNoPruning rest s'

/-- Full disabled-pruning run from a fresh BugFinder. -/
def find_bugs_in_landscape_no_pruning (bug : List Bug.Part) (landscape : List Line) :
    Except EngineError BugFinder :=
  processLinesNoPruning landscape
    { bug := bug, bug_part_matches := fun _ _ => none, bug_count := 0 }

/-- The final count of the disabled-pruning run on the files' processed
lines. -/
def bugCountResultNoPruning (bugRows landscapeRows : List (List Char)) :
    Except EngineError Nat :=
  (find_bugs_in_landscape_no_pruning (read_bug bugRows)
      (reader landscapeRows)).map BugFinder.bug_count

/-- The text of the landscape line with the given id, if any. -/
def fieldText (landscape : List Line) (ln : Int) : Option (List Char) :=
  (landscape.find? fun l => l.id == ln).map Line.pattern

/-- The compiled pattern of shape row j (0-based position in the
shape), when the shape has such a row and it carries a pattern. -/
def rowPattern (bug : List Bug.Part) (j : Nat) : Option (Char × List Constraint) :=
  (bug.get? j).bind Bug.Part.pattern

/-- Does shape row j (0-based position in the shape) match the landscape
line with id ln at column c?  False when no such line exists, when the
shape has no row j, or when that row has no compiled pattern. -/
def rowMatchedAt (bug : List Bug.Part) (landscape : List Line) (ln : Int) (j : Nat)
    (c : Nat) : Bool :=
  match rowPattern bug j, fieldText landscape ln with
  | some (a, cs), some t => matchesAt a cs t c
  | _, _ => false

/-- A full occurrence of the shape with bottom row at line id L and
column c: every row j matches the line with id L - (n-1-j) at column c
(consecutive line ids, the bottom row on line L itself). -/
def chainAt (bug : List Bug.Part) (landscape : List Line) (L : Int) (c : Nat) : Bool :=
  (List.range bug.length).all fun j =>
    rowMatchedAt bug landscape (L - ((bug.length - 1 - j : Nat) : Int)) j c

/-- The ideal occurrence count: over all landscape lines L and all
columns of L, the number of (line, column) pairs carrying a full
occurrence whose bottom row lies on L.  Each pair is counted once, so
this count never counts one set of cells twice. -/
def idealCount (bug : List Bug.Part) (landscape : List Line) : Nat :=
  (landscape.map fun line =>
    ((List.range line.pattern.length).filter fun c => chainAt bug landscape line.id c).length).sum

theorem finditerGo_eq_filter (a : Char) (cs : List Constraint) (t : List Char) :
    ∀ (rem p : Nat), finditerGo a cs t rem p = (List.range' p rem).filter (matchesAt a cs t)
  | 0, _ => rfl
  | rem + 1, p => by
    rw [List.range'_succ, List.filter_cons, finditerGo]
    split
    · next h => simp only [h, finditerGo_eq_filter a cs t rem (p + 1)]
    · next h =>
      simp only [Bool.not_eq_true] at h
      simp only [h, finditerGo_eq_filter a cs t rem (p + 1)]

/-- finditer yields exactly the columns where the compiled row matches,
in the order of the columns. -/
theorem finditer_eq_filter (a : Char) (cs : List Constraint) (t : List Char) :
    finditer a cs t = (List.range t.length).filter (matchesAt a cs t) := by
  rw [finditer, finditerGo_eq_filter, List.range_eq_range']

theorem matchesAt_lt_length {a : Char} {cs : List Constraint} {t : List Char} {c : Nat}
    (h : matchesAt a cs t c = true) : c < t.length := by
  by_contra hc
  rw [matchesAt, if_neg hc] at h
  exact Bool.false_ne_true h

theorem mem_finditer (a : Char) (cs : List Constraint) (t : List Char) (c : Nat) :
    c ∈ finditer a cs t ↔ matchesAt a cs t c = true := by
  rw [finditer_eq_filter, List.mem_filter, List.mem_range]
  constructor
  · exact fun h => h.2
  · exact fun h => ⟨matchesAt_lt_length h, h⟩

theorem finditer_pairwise (a : Char) (cs : List Constraint) (t : List Char) :
    (finditer a cs t).Pairwise (· < ·) := by
  rw [finditer_eq_filter]
  exact (List.pairwise_lt_range t.length).sublist (List.filter_sublist _)

theorem finditer_nodup (a : Char) (cs : List Constraint) (t : List Char) :
    (finditer a cs t).Nodup :=
  (finditer_pairwise a cs t).imp Nat.ne_of_lt

theorem getEntry_touchEntry (t : MatchTable) (a b x y : Int) :
    getEntry (touchEntry t a b) x y = getEntry t x y := by
  unfold getEntry touchEntry
  split
  · next h => rw [h.1, h.2]; rfl
  · rfl

theorem touchEntry_isSome (t : MatchTable) (a b x y : Int) :
    (touchEntry t a b x y).isSome ↔ (x = a ∧ y = b) ∨ (t x y).isSome := by
  unfold touchEntry
  split
  · next h => simp [h]
  · next h => simp [h]

theorem touchEntry_ne (t : MatchTable) (a b x y : Int) (h : ¬(x = a ∧ y = b)) :
    touchEntry t a b x y = t x y := by
  unfold touchEntry
  rw [if_neg h]

theorem getEntry_setEntry (t : MatchTable) (a b : Int) (l : List Nat) (x y : Int) :
    getEntry (setEntry t a b l) x y = if x = a ∧ y = b then l else getEntry t x y := by
  unfold getEntry setEntry
  split
  · rfl
  · rfl

theorem setEntry_isSome (t : MatchTable) (a b : Int) (l : List Nat) (x y : Int) :
    (setEntry t a b l x y).isSome ↔ (x = a ∧ y = b) ∨ (t x y).isSome := by
  unfold setEntry
  split
  · next h => simp [h]
  · next h => simp [h]

theorem setEntry_ne (t : MatchTable) (a b : Int) (l : List Nat) (x y : Int)
    (h : ¬(x = a ∧ y = b)) : setEntry t a b l x y = t x y := by
  unfold setEntry
  rw [if_neg h]

theorem removeFirst_isSome (l : List Nat) (v : Nat) :
    (removeFirst l v).isSome ↔ v ∈ l := by
  induction l with
  | nil => simp [removeFirst]
  | cons x xs ih =>
    rw [removeFirst]
    split
    · next h => simp [h]
    · next h =>
      have hmap : (Option.map (x :: ·) (removeFirst xs v)).isSome = (removeFirst xs v).isSome := by
        cases removeFirst xs v <;> rfl
      rw [hmap, ih, List.mem_cons]
      constructor
      · exact fun hm => Or.inr hm
      · rintro (rfl | hm)
        · exact absurd rfl h
        · exact hm

theorem removeFirst_eq_erase (l : List Nat) (v : Nat) (h : v ∈ l) :
    removeFirst l v = some (l.erase v) := by
  induction l with
  | nil => cases h
  | cons x xs ih =>
    rw [removeFirst, List.erase_cons]
    by_cases hx : x = v
    · subst hx
      simp
    · have hv : v ∈ xs := by
        rcases List.mem_cons.mp h with rfl | hm
        · exact absurd rfl hx
        · exact hm
      have hbx : (x == v) = false := by simp [hx]
      rw [if_neg hx, ih hv, hbx]
      rfl

/-- The membership pattern of the retire walk: each listed part holds the
position at the successive line numbers, starting at ln and stepping
down. -/
def memChain (pos : Nat) : List Bug.Part → Int → MatchTable → Prop
  | [], _, _ => True
  | part :: rest, ln, t => pos ∈ getEntry t ln part.id ∧ memChain pos rest (ln - 1) t

theorem memChain_congr (pos : Nat) (l : List Bug.Part) (ln : Int) {t₁ t₂ : MatchTable}
    (h : ∀ x y, x ≤ ln → getEntry t₁ x y = getEntry t₂ x y) :
    memChain pos l ln t₁ ↔ memChain pos l ln t₂ := by
  induction l generalizing ln with
  | nil => exact Iff.rfl
  | cons part rest ih =>
    rw [memChain, memChain, h ln part.id le_rfl,
      ih (ln - 1) (fun x y hx => h x y (by omega))]

theorem getEntry_belongsAux (pos : Nat) (l : List Bug.Part) (ln : Int) (t : MatchTable)
    (x y : Int) : getEntry (belongsAux pos l ln t).2 x y = getEntry t x y := by
  induction l generalizing ln t with
  | nil => rfl
  | cons part rest ih =>
    simp only [belongsAux]
    split
    · rw [ih, getEntry_touchEntry]
    · exact getEntry_touchEntry t (ln - 1) part.id x y

theorem belongsAux_snd_ge (pos : Nat) (l : List Bug.Part) (ln : Int) (t : MatchTable)
    (x y : Int) (hx : ln ≤ x) : (belongsAux pos l ln t).2 x y = t x y := by
  induction l generalizing ln t with
  | nil => rfl
  | cons part rest ih =>
    simp only [belongsAux]
    have hne : ¬(x = ln - 1 ∧ y = part.id) := by
      rintro ⟨rfl, -⟩
      omega
    split
    · rw [ih _ _ (by omega), touchEntry_ne _ _ _ _ _ hne]
    · exact touchEntry_ne _ _ _ _ _ hne

theorem belongsAux_true_iff (pos : Nat) (l : List Bug.Part) (ln : Int) (t : MatchTable) :
    (belongsAux pos l ln t).1 = true ↔ memChain pos l (ln - 1) t := by
  induction l generalizing ln t with
  | nil => simp [belongsAux, memChain]
  | cons part rest ih =>
    simp only [belongsAux, memChain]
    split
    · next hm =>
      rw [ih]
      have hc := @memChain_congr pos rest (ln - 1 - 1)
        (touchEntry t (ln - 1) part.id) t
        (fun x y _ => getEntry_touchEntry t (ln - 1) part.id x y)
      rw [hc]
      exact (and_iff_right hm).symm
    · next hm =>
      simp only [Bool.false_eq_true, false_iff]
      exact fun hcontra => hm hcontra.1

theorem memChain_of_congr_le (pos : Nat) (l : List Bug.Part) (ln : Int)
    {t₁ t₂ : MatchTable} (h : ∀ x y, x ≤ ln → getEntry t₁ x y = getEntry t₂ x y) :
    memChain pos l ln t₂ → memChain pos l ln t₁ :=
  (memChain_congr pos l ln h).mpr

/-- The retire walk succeeds whenever every visited entry holds the
position: the mutation at each step happens at the current line number,
strictly above all later visits, so later memberships are unaffected. -/
theorem deregisterAux_ok (pos : Nat) (l : List Bug.Part) (ln : Int) (t : MatchTable)
    (h : memChain pos l ln t) : ∃ t', deregisterAux pos l ln t = .ok t' := by
  induction l generalizing ln t with
  | nil => exact ⟨t, rfl⟩
  | cons part rest ih =>
    obtain ⟨hmem, hrest⟩ := h
    rw [deregisterAux, removeFirst_eq_erase _ _ hmem]
    refine ih (ln - 1) _ ?_
    refine memChain_of_congr_le pos rest (ln - 1) (fun x y hx => ?_) hrest
    rw [getEntry_setEntry]
    rw [if_neg]
    rintro ⟨rfl, -⟩
    omega


theorem register_bug (s : BugFinder) (bp : Bug.Part) (line : Line) (pos : Nat) :
    (register_bug_part_match s bp line pos).bug = s.bug := rfl

theorem register_getEntry (s : BugFinder) (bp : Bug.Part) (line : Line) (pos : Nat)
    (x y : Int) :
    getEntry (register_bug_part_match s bp line pos).bug_part_matches x y =
      if x = line.id ∧ y = bp.id then
        getEntry s.bug_part_matches line.id bp.id ++ [pos]
      else getEntry s.bug_part_matches x y := by
  unfold register_bug_part_match
  exact getEntry_setEntry _ _ _ _ _ _

/-- After the belongs check succeeded on a state holding the position at
the key pair (line id, part id), the retire walk over the whole reversed
shape succeeds: the walk's first visit is that key pair, and its
remaining visits are exactly the positions the check confirmed. -/
theorem deregisterAux_ok_of_belongs (s : BugFinder) (bp : Bug.Part) (line : Line) (pos : Nat)
    (hmem : pos ∈ getEntry s.bug_part_matches line.id bp.id)
    (h : (bug_part_match_belongs_to_a_bug s bp line pos).1 = true) :
    ∃ t', deregisterAux pos s.bug.reverse line.id
      (bug_part_match_belongs_to_a_bug s bp line pos).2 = .ok t' := by
  cases hlast : (s.bug.map Bug.Part.id).getLast? with
  | none =>
    rw [bug_part_match_belongs_to_a_bug, hlast] at h
    exact absurd h (by simp)
  | some lastId =>
    rw [bug_part_match_belongs_to_a_bug, hlast] at h ⊢
    dsimp only at h ⊢
    by_cases hid : bp.id = lastId
    · rw [if_pos hid] at h ⊢
      have hne : s.bug ≠ [] := by
        intro hnil
        rw [hnil] at hlast
        exact Option.noConfusion hlast
      have hdecomp : s.bug.dropLast ++ [s.bug.getLast hne] = s.bug :=
        List.dropLast_append_getLast hne
      have hrev : s.bug.reverse = s.bug.getLast hne :: s.bug.dropLast.reverse := by
        conv_lhs => rw [← hdecomp]
        rw [List.reverse_append]
        rfl
      have hlastid : (s.bug.getLast hne).id = lastId := by
        have hmap : (s.bug.map Bug.Part.id).getLast? = some ((s.bug.getLast hne).id) := by
          conv_lhs => rw [← hdecomp]
          simp
        rw [hlast] at hmap
        exact ((Option.some.injEq _ _).mp hmap).symm
      rw [hrev]
      apply deregisterAux_ok
      rw [memChain]
      constructor
      · rw [getEntry_belongsAux, hlastid, ← hid]
        exact hmem
      · have hch := (belongsAux_true_iff pos s.bug.dropLast.reverse line.id
          s.bug_part_matches).mp h
        refine memChain_of_congr_le pos _ _ (fun x y _ => ?_) hch
        exact getEntry_belongsAux pos _ _ _ x y
    · rw [if_neg hid] at h
      exact absurd h (by simp)

theorem deregister_bug_match_fields (bug : List Bug.Part) (tbl : MatchTable) (c : Nat)
    (line : Line) (pos : Nat) :
    deregister_bug_match { bug := bug, bug_part_matches := tbl, bug_count := c } line pos =
      match deregisterAux pos bug.reverse line.id tbl with
      | .error e => .error e
      | .ok t => .ok { bug := bug, bug_part_matches := t, bug_count := c } := by
  unfold deregister_bug_match
  cases deregisterAux pos bug.reverse line.id tbl <;> rfl

theorem processOneMatch_eq (bp : Bug.Part) (line : Line) (pos : Nat) (s : BugFinder) :
    processOneMatch bp line pos s =
      if (bug_part_match_belongs_to_a_bug (register_bug_part_match s bp line pos)
            bp line pos).1 then
        deregister_bug_match
          { bug := s.bug,
            bug_part_matches :=
              (bug_part_match_belongs_to_a_bug (register_bug_part_match s bp line pos)
                bp line pos).2,
            bug_count := s.bug_count + 1 }
          line pos
      else
        .ok { bug := s.bug,
              bug_part_matches :=
                (bug_part_match_belongs_to_a_bug (register_bug_part_match s bp line pos)
                  bp line pos).2,
              bug_count := s.bug_count } := rfl

theorem processOneMatch_ne_valueError (bp : Bug.Part) (line : Line) (pos : Nat)
    (s : BugFinder) : processOneMatch bp line pos s ≠ .error .valueError := by
  rw [processOneMatch_eq]
  split
  · next hb1 =>
    have hmem : pos ∈ getEntry
        (register_bug_part_match s bp line pos).bug_part_matches line.id bp.id := by
      rw [register_getEntry, if_pos ⟨rfl, rfl⟩]
      exact List.mem_append_right _ (List.mem_singleton.mpr rfl)
    obtain ⟨t', ht'⟩ :=
      deregisterAux_ok_of_belongs (register_bug_part_match s bp line pos) bp line pos hmem hb1
    rw [register_bug] at ht'
    rw [deregister_bug_match_fields, ht']
    intro h
    exact Except.noConfusion h
  · intro h
    exact Except.noConfusion h

theorem processMatches_ne_valueError (bp : Bug.Part) (line : Line) (ps : List Nat) :
    ∀ s, processMatches bp line ps s ≠ .error .valueError := by
  induction ps with
  | nil =>
    intro s h
    exact Except.noConfusion h
  | cons pos rest ih =>
    intro s
    rw [processMatches]
    cases hres : processOneMatch bp line pos s with
    | error e =>
      cases e with
      | typeError =>
        dsimp only
        intro h
        injection h with h
        exact EngineError.noConfusion h
      | valueError => exact absurd hres (processOneMatch_ne_valueError bp line pos s)
    | ok s' =>
      dsimp only
      exact ih s'

theorem find_bug_part_line_ne_valueError (s : BugFinder) (bp : Bug.Part) (line : Line) :
    find_bug_part_and_bugs_in_landscape_line s bp line ≠ .error .valueError := by
  unfold find_bug_part_and_bugs_in_landscape_line
  cases hp : bp.pattern with
  | none =>
    intro h
    injection h with h
    exact EngineError.noConfusion h
  | some p =>
    obtain ⟨a, cs⟩ := p
    dsimp only
    exact processMatches_ne_valueError bp line _ s

theorem processParts_ne_valueError (line : Line) (l : List Bug.Part) :
    ∀ s, processParts line l s ≠ .error .valueError := by
  induction l with
  | nil =>
    intro s h
    exact Except.noConfusion h
  | cons bp rest ih =>
    intro s
    rw [processParts]
    split
    · exact ih s
    · cases hres : find_bug_part_and_bugs_in_landscape_line s bp line with
      | error e =>
        cases e with
        | typeError =>
          dsimp only
          intro h
          injection h with h
          exact EngineError.noConfusion h
        | valueError => exact absurd hres (find_bug_part_line_ne_valueError s bp line)
      | ok s' =>
        dsimp only
        split
        · intro h
          exact Except.noConfusion h
        · exact ih s'

theorem processLines_ne_valueError (ls : List Line) :
    ∀ s, processLines ls s ≠ .error .valueError := by
  induction ls with
  | nil =>
    intro s h
    exact Except.noConfusion h
  | cons line rest ih =>
    intro s
    rw [processLines]
    cases hres : processParts line s.bug s with
    | error e =>
      cases e with
      | typeError =>
        dsimp only
        intro h
        injection h with h
        exact EngineError.noConfusion h
      | valueError => exact absurd hres (processParts_ne_valueError line s.bug s)
    | ok s' =>
      dsimp only
      exact ih s'

theorem readerLine_some {li : Nat × List Char} {line : Line}
    (h : readerLine li = some line) :
    line.id = (li.1 : Int) ∧ line.pattern = rstrip li.2 ∧ ¬(rstrip li.2).isEmpty := by
  simp only [readerLine] at h
  split at h
  · exact Option.noConfusion h
  · next hne =>
    obtain rfl := (Option.some.injEq _ _).mp h
    exact ⟨rfl, rfl, hne⟩

theorem reader_enumFrom_facts (ls : List (List Char)) : ∀ (n : Nat),
    (∀ line ∈ (ls.enumFrom n).filterMap readerLine,
      ¬line.pattern.isEmpty ∧ (n : Int) ≤ line.id) ∧
    (((ls.enumFrom n).filterMap readerLine).map Line.id).Chain' (· < ·) := by
  induction ls with
  | nil => exact fun n => ⟨by simp, by simp⟩
  | cons x ls ih =>
    intro n
    have henum : (x :: ls).enumFrom n = (n, x) :: ls.enumFrom (n + 1) := rfl
    rw [henum, List.filterMap_cons]
    cases hk : readerLine (n, x) with
    | none =>
      refine ⟨fun line hl => ?_, (ih (n + 1)).2⟩
      obtain ⟨h1, h2⟩ := (ih (n + 1)).1 line hl
      exact ⟨h1, by omega⟩
    | some line0 =>
      obtain ⟨hid, hpat, hne⟩ := readerLine_some hk
      constructor
      · intro line hl
        rcases List.mem_cons.mp hl with rfl | hl'
        · refine ⟨?_, by omega⟩
          rw [hpat]
          exact hne
        · obtain ⟨h1, h2⟩ := (ih (n + 1)).1 line hl'
          exact ⟨h1, by omega⟩
      · rw [List.map_cons]
        rw [List.chain'_cons']
        constructor
        · intro b hb
          have hbmem : b ∈ ((ls.enumFrom (n + 1)).filterMap readerLine).map Line.id :=
            List.mem_of_mem_head? hb
          obtain ⟨line', hl', rfl⟩ := List.mem_map.mp hbmem
          have := ((ih (n + 1)).1 line' hl').2
          omega
        · exact (ih (n + 1)).2

theorem reader_pattern_ne_empty (ls : List (List Char)) :
    ∀ line ∈ reader ls, ¬line.pattern.isEmpty :=
  fun line hl => ((reader_enumFrom_facts ls 0).1 line hl).1

theorem reader_id_nonneg (ls : List (List Char)) :
    ∀ line ∈ reader ls, 0 ≤ line.id :=
  fun line hl => ((reader_enumFrom_facts ls 0).1 line hl).2

theorem reader_ids_chain (ls : List (List Char)) :
    ((reader ls).map Line.id).Chain' (· < ·) :=
  (reader_enumFrom_facts ls 0).2

theorem reader_all_kept (ls : List (List Char)) (h : ∀ r ∈ ls, ¬(rstrip r).isEmpty) :
    ∀ (n : Nat), ((ls.enumFrom n).filterMap readerLine).map Line.id =
      (List.range' n ls.length).map Int.ofNat := by
  induction ls with
  | nil => intro n; rfl
  | cons x ls ih =>
    intro n
    have henum : (x :: ls).enumFrom n = (n, x) :: ls.enumFrom (n + 1) := rfl
    rw [henum, List.filterMap_cons]
    have hx : ¬(rstrip x).isEmpty := h x (List.mem_cons_self x ls)
    cases hk : readerLine (n, x) with
    | none =>
      unfold readerLine at hk
      rw [if_neg hx] at hk
      exact Option.noConfusion hk
    | some line0 =>
      obtain ⟨hid, hpat, -⟩ := readerLine_some hk
      rw [List.map_cons, ih (fun r hr => h r (List.mem_cons_of_mem x hr)) (n + 1)]
      rw [List.length_cons, List.range'_succ, List.map_cons, hid]
      rfl

theorem read_bug_map_id (rows : List (List Char)) :
    (read_bug rows).map Bug.Part.id = (reader rows).map Line.id := by
  unfold read_bug
  rw [List.map_map]
  rfl

theorem read_bug_pattern_isSome (rows : List (List Char)) :
    ∀ p ∈ read_bug rows, p.pattern.isSome := by
  intro p hp
  unfold read_bug at hp
  obtain ⟨line, hl, rfl⟩ := List.mem_map.mp hp
  have hne := reader_pattern_ne_empty rows line hl
  cases hpat : line.pattern with
  | nil =>
    rw [hpat] at hne
    exact absurd rfl hne
  | cons c r => rfl

/-- C10: during any execution of find_bugs_in_landscape, every call to
deregister_bug_match removes only positions present in their lists: the
fatal retire-on-missing-entry branch (list.remove raising ValueError on
an absent position) is unreachable, because deregistration is invoked
only immediately after bug_part_match_belongs_to_a_bug confirmed the
position at every prior part's line and the bottom position was just
registered.  Consequently no run, on any shape and any landscape,
returns the ValueError outcome. -/
theorem c10_retire_on_missing_unreachable (bug : List Bug.Part) (landscape : List Line) :
    find_bugs_in_landscape bug landscape ≠ .error .valueError :=
  processLines_ne_valueError landscape _

theorem processLines_empty_bug (ls : List Line) :
    ∀ s : BugFinder, s.bug = [] → processLines ls s = .ok s := by
  induction ls with
  | nil => intro s _; rfl
  | cons line rest ih =>
    intro s h
    rw [processLines, h]
    exact ih s h

/-- C3 counterexample: constructing a shape from zero rows raises
nothing - the shape is just empty, the engine runs to completion and an
occurrence count of 0 is produced and reported; likewise compiling the
empty row returns None instead of raising.  There is no InvalidShape
error anywhere in the program. -/
theorem c3_counterexample :
    read_bug [] = [] ∧ format_pattern [] = none ∧
    bugCountResult [] [['a', 'b', 'c']] = .ok 0 :=
  ⟨rfl, rfl, rfl⟩

/-- C3 (amended): constructing a shape from zero rows succeeds with the
empty shape and the engine then completes on any field, producing the
occurrence count 0 with no error; compiling an empty row yields no
pattern (None) rather than raising at construction; and parts built by
the shape reader always carry a compiled pattern, because the reader
omits blank rows. -/
theorem c3_zero_rows_and_empty_row_behaviour :
    read_bug [] = [] ∧ format_pattern [] = none ∧
    (∀ landscapeRows, bugCountResult [] landscapeRows = .ok 0) ∧
    (∀ rows, ∀ p ∈ read_bug rows, p.pattern.isSome) := by
  refine ⟨rfl, rfl, fun landscapeRows => ?_, fun rows => read_bug_pattern_isSome rows⟩
  unfold bugCountResult
  rw [show read_bug [] = [] from rfl]
  rw [find_bugs_in_landscape,
    processLines_empty_bug (reader landscapeRows) _ rfl]
  rfl

/-- C3 witness: the amended statement applied at concrete inputs. -/
theorem c3_witness :
    bugCountResult [] [['x']] = .ok 0 ∧
    ∃ p, p ∈ read_bug [['a']] ∧ p.pattern.isSome :=
  ⟨c3_zero_rows_and_empty_row_behaviour.2.2.1 [['x']],
   ⟨{ id := 0, pattern := format_pattern ['a'] }, by decide,
    c3_zero_rows_and_empty_row_behaviour.2.2.2 [['a']] _ (by decide)⟩⟩

/-- C9 counterexample: a shape source with a blank middle row compiles
to two parts with ids 0 and 2 - the reader keeps enumerate indices, so
omitted blank rows leave gaps; part 1 does not have id 1, and the bottom
part's id is 2, not n-1 = 1. -/
theorem c9_counterexample :
    (read_bug [['a'], [], ['b']]).map Bug.Part.id = [0, 2] ∧
    (read_bug [['a'], [], ['b']]).length = 2 ∧
    (read_bug [['a'], [], ['b']]).map Bug.Part.id ≠
      (List.range (read_bug [['a'], [], ['b']]).length).map Int.ofNat := by
  refine ⟨rfl, rfl, ?_⟩
  decide

/-- C9 (amended): part ids are the source line indices, hence strictly
increasing; they are contiguous from 0 (part k has id k, bottom id
n-1) whenever the reader omits no blank row from the shape source. -/
theorem c9_row_ids (rows : List (List Char)) :
    ((read_bug rows).map Bug.Part.id).Chain' (· < ·) ∧
    ((∀ r ∈ rows, ¬(rstrip r).isEmpty) →
      (read_bug rows).map Bug.Part.id = (List.range rows.length).map Int.ofNat) := by
  constructor
  · rw [read_bug_map_id]
    exact reader_ids_chain rows
  · intro h
    have h0 : rows.enum = rows.enumFrom 0 := rfl
    rw [read_bug_map_id, reader, h0, reader_all_kept rows h 0, List.range_eq_range']

/-- C9 witness: the amended statement applied at a blank-free source. -/
theorem c9_witness :
    (read_bug [['a'], ['b']]).map Bug.Part.id =
      (List.range ([['a'], ['b']] : List (List Char)).length).map Int.ofNat :=
  (c9_row_ids [['a'], ['b']]).2 (by decide)

/-- C2 counterexample: after the single-row shape from source row a is
found once in the one-line field a, the occurrence is retired by
deregister_bug_match; the key (0, 0) then remains in the table holding
the empty list, so bug_part_match_exists returns true although zero
columns are registered for that key.  The match table does store an
empty position list, and the claimed equivalence fails. -/
theorem c2_counterexample :
    (find_bugs_in_landscape (read_bug [['a']]) (reader [['a']])).map
      (fun s => (bug_part_match_exists s { id := 0, pattern := format_pattern ['a'] }
          { id := 0, pattern := ['a'] },
        getEntry s.bug_part_matches 0 0)) = .ok (true, []) := rfl

/-- C2 (amended): an absent key really means no registered column -
bug_part_match_exists false implies the entry reads as empty - and
registering a column makes the key present; but the converse fails:
keys may persist with empty lists after an occurrence is retired (or
after a defensive probe creates them), so bug_part_match_exists reports
key presence, which may be true with zero columns registered. -/
theorem c2_key_presence :
    (∀ (s : BugFinder) (bp : Bug.Part) (line : Line),
      bug_part_match_exists s bp line = false →
        getEntry s.bug_part_matches line.id bp.id = []) ∧
    (∀ (s : BugFinder) (bp : Bug.Part) (line : Line) (pos : Nat),
      bug_part_match_exists (register_bug_part_match s bp line pos) bp line = true) := by
  constructor
  · intro s bp line h
    unfold bug_part_match_exists at h
    unfold getEntry
    cases hv : s.bug_part_matches line.id bp.id with
    | none => rfl
    | some l =>
      rw [hv] at h
      exact absurd h (by simp)
  · intro s bp line pos
    simp [bug_part_match_exists, register_bug_part_match, setEntry]

/-- C2 witness: the amended statement applied at concrete inputs. -/
theorem c2_witness :
    getEntry (fun _ _ => none : MatchTable) 0 0 = [] ∧
    bug_part_match_exists
      (register_bug_part_match
        { bug := [], bug_part_matches := fun _ _ => none, bug_count := 0 }
        { id := 0, pattern := none } { id := 0, pattern := [] } 5)
      { id := 0, pattern := none } { id := 0, pattern := [] } = true :=
  ⟨c2_key_presence.1 { bug := [], bug_part_matches := fun _ _ => none, bug_count := 0 }
      { id := 0, pattern := none } { id := 0, pattern := [] } (by decide),
   c2_key_presence.2 _ _ _ 5⟩

theorem parseRest_no_ws (rest : List Char) (h : ∀ ch ∈ rest, isPySpace ch = false) :
    parseRest rest = rest.map Constraint.lit := by
  rw [parseRest]
  induction rest with
  | nil => rfl
  | cons ch rest ih =>
    have hch : isPySpace ch = false := h ch (List.mem_cons_self ch rest)
    have hsp : ¬ch = ' ' := by
      intro hc
      rw [hc] at hch
      exact Bool.noConfusion hch
    rw [parseRestGo, if_neg hsp, if_neg (by rw [hch]; exact Bool.false_ne_true)]
    rw [List.map_cons, ih (fun c hc => h c (List.mem_cons_of_mem ch hc))]

theorem constraintsMatch_lits (l : List Char) :
    ∀ (t : List Char) (p : Nat),
      constraintsMatch (l.map Constraint.lit) t p = true ↔ (t.drop p).take l.length = l := by
  induction l with
  | nil =>
    intro t p
    simp [constraintsMatch]
  | cons ch l ih =>
    intro t p
    rw [List.map_cons, constraintsMatch]
    by_cases hp : p < t.length
    · rw [if_pos hp]
      rw [List.drop_eq_getElem_cons hp]
      rw [List.length_cons, List.take_succ_cons]
      rw [Bool.and_eq_true, beq_iff_eq, List.getD_eq_getElem t ' ' hp]
      rw [ih t (p + 1)]
      constructor
      · rintro ⟨h1, h2⟩
        rw [h1, h2]
      · intro h
        have h1 := List.head_eq_of_cons_eq h
        have h2 := List.tail_eq_of_cons_eq h
        exact ⟨h1, h2⟩
    · rw [if_neg hp]
      have hd : t.drop p = [] := List.drop_eq_nil_of_le (by omega)
      rw [hd]
      simp

/-- C5 counterexample: the shape row a-tab-b contains no blank (space)
character, yet its compiled matcher does not compare the tab literally:
the row compiles to anchor a, literal dot, literal b (the escaped tab is
replaced by a dot-repetition whose backslash escapes the dot), so the
matcher rejects the target a-tab-b at column 0 - whose substring equals
the row - and accepts the target a-dot-b - whose substring differs. -/
theorem c5_counterexample :
    (format_pattern ['a', '\t', 'b']).map
      (fun p => (matchesAt p.1 p.2 ['a', '\t', 'b'] 0,
        matchesAt p.1 p.2 ['a', '.', 'b'] 0)) = some (false, true) ∧
    (['a', '\t', 'b'] : List Char).take 3 = ['a', '\t', 'b'] ∧
    (['a', '.', 'b'] : List Char) ≠ ['a', '\t', 'b'] := by
  refine ⟨rfl, rfl, ?_⟩
  decide

/-- C5 (amended): for every non-empty shape row containing no
whitespace character at all (not merely no blank), the compiled matcher
accepts a target at column c iff the row equals the target's substring
at positions c to c + row length; every such character, including
non-alphanumeric ones, is compared literally. -/
theorem c5_literal_row_matcher (row target : List Char) (c : Nat) (a : Char)
    (cs : List Constraint) (hcomp : format_pattern row = some (a, cs))
    (hws : ∀ ch ∈ row, isPySpace ch = false) :
    matchesAt a cs target c = true ↔ (target.drop c).take row.length = row := by
  cases row with
  | nil => exact Option.noConfusion hcomp
  | cons c0 rest =>
    rw [format_pattern] at hcomp
    obtain ⟨rfl, rfl⟩ := Prod.mk.injEq .. ▸ (Option.some.injEq _ _).mp hcomp
    rw [parseRest_no_ws rest (fun ch hc => hws ch (List.mem_cons_of_mem c0 hc))]
    have hma : matchesAt c0 (rest.map Constraint.lit) target c =
        constraintsMatch ((c0 :: rest).map Constraint.lit) target c := rfl
    rw [hma, constraintsMatch_lits]

/-- C5 witness: the amended statement applied at a concrete row, target
and column. -/
theorem c5_witness :
    matchesAt 'x' [Constraint.lit '!'] ['x', '!', 'z'] 0 = true :=
  (c5_literal_row_matcher ['x', '!'] ['x', '!', 'z'] 0 'x' [Constraint.lit '!']
    rfl (by decide)).mpr (by decide)

/-- C6: for every compiled shape row and target, enumerating matches
with re.finditer over the lookahead pattern yields exactly the set of
columns at which the row matches, in strictly ascending order; two
valid start columns differing by 1 are both reported, because the match
consumes only the one-character anchor. -/
theorem c6_finditer_enumeration (row : List Char) (a : Char) (cs : List Constraint)
    (t : List Char) (hcomp : format_pattern row = some (a, cs)) :
    finditer a cs t = (List.range t.length).filter (matchesAt a cs t) ∧
    (finditer a cs t).Pairwise (· < ·) ∧
    (∀ c : Nat, matchesAt a cs t c = true → matchesAt a cs t (c + 1) = true →
      c ∈ finditer a cs t ∧ c + 1 ∈ finditer a cs t) :=
  ⟨finditer_eq_filter a cs t, finditer_pairwise a cs t,
   fun c h1 h2 => ⟨(mem_finditer a cs t c).mpr h1, (mem_finditer a cs t (c + 1)).mpr h2⟩⟩

/-- C6 witness: the statement applied to the compiled row a with target
aa, where the overlapping columns 0 and 1 are both reported. -/
theorem c6_witness :
    finditer 'a' [] ['a', 'a'] =
      (List.range (['a', 'a'] : List Char).length).filter (matchesAt 'a' [] ['a', 'a']) ∧
    (0 ∈ finditer 'a' [] ['a', 'a'] ∧ 0 + 1 ∈ finditer 'a' [] ['a', 'a']) :=
  ⟨(c6_finditer_enumeration ['a'] 'a' [] ['a', 'a'] rfl).1,
   (c6_finditer_enumeration ['a'] 'a' [] ['a', 'a'] rfl).2.2 0 (by decide) (by decide)⟩

/-- C7: the row d-space-ta compiles to anchor d, skip-1, literal ta; its
matcher accepts data at column 0 and rejects dta at column 0.  In
general a skip-N constraint consumes exactly N characters of any value
when they exist, and a skip-N extending past the end of the target makes
the match fail (false) rather than raise an error. -/
theorem c7_skip_run_semantics :
    (format_pattern ['d', ' ', 't', 'a'] =
      some ('d', [Constraint.skip 1, Constraint.lit 't', Constraint.lit 'a'])) ∧
    ((format_pattern ['d', ' ', 't', 'a']).map
      (fun p => (matchesAt p.1 p.2 ['d', 'a', 't', 'a'] 0,
        matchesAt p.1 p.2 ['d', 't', 'a'] 0)) = some (true, false)) ∧
    (∀ (cs : List Constraint) (t : List Char) (p n : Nat), p + n ≤ t.length →
      constraintsMatch (Constraint.skip n :: cs) t p = constraintsMatch cs t (p + n)) ∧
    (∀ (cs : List Constraint) (t : List Char) (p n : Nat), t.length < p + n →
      constraintsMatch (Constraint.skip n :: cs) t p = false) := by
  refine ⟨rfl, rfl, fun cs t p n h => ?_, fun cs t p n h => ?_⟩
  · rw [constraintsMatch, if_pos h]
  · rw [constraintsMatch, if_neg (by omega)]

/-- C7 witness: the skip-N conjuncts applied at concrete inputs. -/
theorem c7_witness :
    constraintsMatch [Constraint.skip 1] ['a', 'b'] 0 = constraintsMatch [] ['a', 'b'] 1 ∧
    constraintsMatch [Constraint.skip 2] ['a'] 0 = false :=
  ⟨c7_skip_run_semantics.2.2.1 [] ['a', 'b'] 0 1 (by decide),
   c7_skip_run_semantics.2.2.2 [] ['a'] 0 2 (by decide)⟩

/-- All non-empty entries of the table lie on the given lines. -/
def TblDom (t : MatchTable) (S : List Int) : Prop :=
  ∀ ℓ i : Int, getEntry t ℓ i ≠ [] → ℓ ∈ S

theorem TblDom_register (s : BugFinder) (bp : Bug.Part) (line : Line) (pos : Nat)
    (S : List Int) (hS : line.id ∈ S) (h : TblDom s.bug_part_matches S) :
    TblDom (register_bug_part_match s bp line pos).bug_part_matches S := by
  intro ℓ i hne
  rw [register_getEntry] at hne
  by_cases hk : ℓ = line.id ∧ i = bp.id
  · rw [hk.1]
    exact hS
  · rw [if_neg hk] at hne
    exact h ℓ i hne

theorem getEntry_belongs_snd (s : BugFinder) (bp : Bug.Part) (line : Line) (pos : Nat)
    (x y : Int) :
    getEntry (bug_part_match_belongs_to_a_bug s bp line pos).2 x y =
      getEntry s.bug_part_matches x y := by
  unfold bug_part_match_belongs_to_a_bug
  cases (s.bug.map Bug.Part.id).getLast? with
  | none => rfl
  | some lastId =>
    dsimp only
    split
    · exact getEntry_belongsAux pos _ _ _ x y
    · rfl

theorem memChain_lines_mem (pos : Nat) (l : List Bug.Part) (t : MatchTable) (S : List Int)
    (hdom : TblDom t S) :
    ∀ (ln : Int), memChain pos l ln t → ∀ k < l.length, (ln - (k : Int)) ∈ S := by
  induction l with
  | nil =>
    intro ln _ k hk
    exact absurd hk (by simp)
  | cons part rest ih =>
    rintro ln ⟨hm, hrest⟩ k hk
    cases k with
    | zero =>
      have : getEntry t ln part.id ≠ [] := List.ne_nil_of_mem hm
      have h0 : ln - ((0 : Nat) : Int) = ln := by omega
      rw [h0]
      exact hdom ln part.id this
    | succ k =>
      have := ih (ln - 1) hrest k (by
        rw [List.length_cons] at hk
        omega)
      have hcast : ln - ((k + 1 : Nat) : Int) = ln - 1 - (k : Int) := by
        push_cast
        ring
      rw [hcast]
      exact this

theorem length_le_of_nodup_subset (l₁ l₂ : List Int) (h1 : l₁.Nodup)
    (h2 : ∀ x ∈ l₁, x ∈ l₂) : l₁.length ≤ l₂.length := by
  classical
  have hc1 : l₁.toFinset.card = l₁.length := List.toFinset_card_of_nodup h1
  have hsub : l₁.toFinset ⊆ l₂.toFinset := by
    intro x hx
    rw [List.mem_toFinset] at hx ⊢
    exact h2 x hx
  calc l₁.length = l₁.toFinset.card := hc1.symm
    _ ≤ l₂.toFinset.card := Finset.card_le_card hsub
    _ ≤ l₂.length := l₂.toFinset_card_le

/-- When fewer prior lines exist than the shape needs, the belongs check
can never succeed: it would require the position to be registered at
n - 1 distinct earlier lines. -/
theorem belongs_false_of_short (s : BugFinder) (bp : Bug.Part) (line : Line) (pos : Nat)
    (prior : List Int) (hdom : TblDom s.bug_part_matches (prior ++ [line.id]))
    (hb : prior.length + 1 < s.bug.length) :
    (bug_part_match_belongs_to_a_bug s bp line pos).1 = false := by
  by_contra hcon
  rw [Bool.not_eq_false] at hcon
  cases hlast : (s.bug.map Bug.Part.id).getLast? with
  | none =>
    rw [bug_part_match_belongs_to_a_bug, hlast] at hcon
    exact absurd hcon (by simp)
  | some lastId =>
    rw [bug_part_match_belongs_to_a_bug, hlast] at hcon
    dsimp only at hcon
    by_cases hid : bp.id = lastId
    · rw [if_pos hid] at hcon
      have hch := (belongsAux_true_iff pos s.bug.dropLast.reverse line.id
        s.bug_part_matches).mp hcon
      have hlines := memChain_lines_mem pos s.bug.dropLast.reverse s.bug_part_matches
        (prior ++ [line.id]) hdom (line.id - 1) hch
      have hlen_rev : s.bug.dropLast.reverse.length = s.bug.length - 1 := by
        rw [List.length_reverse, List.length_dropLast]
      have hmem' : ∀ k < s.bug.length - 1, (line.id - 1 - (k : Int)) ∈ prior := by
        intro k hk
        have hmem := hlines k (by omega)
        rcases List.mem_append.mp hmem with h | h
        · exact h
        · exfalso
          have : line.id - 1 - (k : Int) = line.id := List.mem_singleton.mp h
          omega
      have hnodup : ((List.range (s.bug.length - 1)).map
          (fun (k : Nat) => line.id - 1 - (k : Int))).Nodup := by
        refine List.Nodup.map ?_ (List.nodup_range _)
        intro a b hab
        simp only at hab
        omega
      have hlen := length_le_of_nodup_subset _ prior hnodup (by
        intro x hx
        obtain ⟨k, hk, rfl⟩ := List.mem_map.mp hx
        exact hmem' k (List.mem_range.mp hk))
      rw [List.length_map, List.length_range] at hlen
      omega
    · rw [if_neg hid] at hcon
      exact absurd hcon (by simp)

theorem processMatches_short (shape : List Bug.Part) (bp : Bug.Part) (line : Line)
    (prior : List Int) (ps : List Nat) :
    ∀ s : BugFinder, s.bug = shape →
      TblDom s.bug_part_matches (prior ++ [line.id]) →
      prior.length + 1 < shape.length →
      ∃ s', processMatches bp line ps s = .ok s' ∧ s'.bug = shape ∧
        s'.bug_count = s.bug_count ∧ TblDom s'.bug_part_matches (prior ++ [line.id]) := by
  induction ps with
  | nil => exact fun s h1 h2 h3 => ⟨s, rfl, h1, rfl, h2⟩
  | cons pos rest ih =>
    intro s h1 h2 h3
    have hdom1 : TblDom (register_bug_part_match s bp line pos).bug_part_matches
        (prior ++ [line.id]) :=
      TblDom_register s bp line pos _ (List.mem_append_right _ (List.mem_singleton.mpr rfl)) h2
    have hfalse := belongs_false_of_short (register_bug_part_match s bp line pos) bp line pos
      prior hdom1 (by rw [register_bug, h1]; exact h3)
    have hone : processOneMatch bp line pos s =
        .ok { bug := s.bug,
              bug_part_matches :=
                (bug_part_match_belongs_to_a_bug (register_bug_part_match s bp line pos)
                  bp line pos).2,
              bug_count := s.bug_count } := by
      rw [processOneMatch_eq, hfalse]
      rw [if_neg Bool.false_ne_true]
    rw [processMatches, hone]
    dsimp only
    have hdom2 : TblDom (bug_part_match_belongs_to_a_bug
        (register_bug_part_match s bp line pos) bp line pos).2 (prior ++ [line.id]) := by
      intro ℓ i hne
      rw [getEntry_belongs_snd] at hne
      exact hdom1 ℓ i hne
    obtain ⟨s', hrun, hbug, hcount, hdom'⟩ := ih
      { bug := s.bug,
        bug_part_matches :=
          (bug_part_match_belongs_to_a_bug (register_bug_part_match s bp line pos)
            bp line pos).2,
        bug_count := s.bug_count } h1 hdom2 h3
    exact ⟨s', hrun, hbug, hcount, hdom'⟩

theorem processParts_short (shape : List Bug.Part) (line : Line) (prior : List Int) :
    ∀ (l : List Bug.Part), (∀ p ∈ l, p.pattern.isSome) →
    ∀ s : BugFinder, s.bug = shape →
      TblDom s.bug_part_matches (prior ++ [line.id]) →
      prior.length + 1 < shape.length →
      ∃ s', processParts line l s = .ok s' ∧ s'.bug = shape ∧
        s'.bug_count = s.bug_count ∧
        TblDom s'.bug_part_matches (prior ++ [line.id]) := by
  intro l
  induction l with
  | nil => exact fun _ s h1 h2 h3 => ⟨s, rfl, h1, rfl, h2⟩
  | cons bp rest ih =>
    intro hpat s h1 h2 h3
    rw [processParts]
    split
    · exact ih (fun p hp => hpat p (List.mem_cons_of_mem _ hp)) s h1 h2 h3
    · have hsome := hpat bp (List.mem_cons_self _ _)
      obtain ⟨pr, hp⟩ := Option.isSome_iff_exists.mp hsome
      obtain ⟨a, cs⟩ := pr
      have hlineq : find_bug_part_and_bugs_in_landscape_line s bp line =
          processMatches bp line (finditer a cs line.pattern) s := by
        unfold find_bug_part_and_bugs_in_landscape_line
        rw [hp]
      obtain ⟨s', hrun, hbug, hcount, hdom'⟩ :=
        processMatches_short shape bp line prior (finditer a cs line.pattern) s h1 h2 h3
      rw [hlineq, hrun]
      dsimp only
      split
      · exact ⟨s', rfl, hbug, hcount, hdom'⟩
      · obtain ⟨s'', hrun2, hbug2, hcount2, hdom2⟩ :=
          ih (fun p hp => hpat p (List.mem_cons_of_mem _ hp)) s' hbug hdom' h3
        exact ⟨s'', hrun2, hbug2, by rw [hcount2, hcount], hdom2⟩

theorem processLines_short (shape : List Bug.Part)
    (hpat : ∀ p ∈ shape, p.pattern.isSome) :
    ∀ (rest : List Line) (prior : List Int) (s : BugFinder),
      s.bug = shape →
      TblDom s.bug_part_matches prior →
      prior.length + rest.length < shape.length →
      ∃ s', processLines rest s = .ok s' ∧ s'.bug_count = s.bug_count := by
  intro rest
  induction rest with
  | nil => exact fun prior s h1 h2 h3 => ⟨s, rfl, rfl⟩
  | cons line rest ih =>
    intro prior s h1 h2 h3
    rw [List.length_cons] at h3
    rw [processLines]
    have hdomext : TblDom s.bug_part_matches (prior ++ [line.id]) :=
      fun ℓ i hne => List.mem_append_left _ (h2 ℓ i hne)
    obtain ⟨s', hrun, hbug, hcount, hdomS⟩ :=
      processParts_short shape line prior shape hpat s h1 hdomext (by omega)
    rw [h1, hrun]
    dsimp only
    have hdomS' : TblDom s'.bug_part_matches (prior ++ [line.id]) := hdomS
    obtain ⟨s'', hrun2, hcount2⟩ := ih (prior ++ [line.id]) s' hbug hdomS' (by
      rw [List.length_append, List.length_singleton]
      omega)
    exact ⟨s'', hrun2, by rw [hcount2, hcount]⟩

/-- C8: for every shape and every field containing fewer non-blank lines
than the shape has rows, find_bugs_in_landscape completes normally - no
exception - and the final occurrence count is 0: a completed occurrence
would require the bottom position to be registered at n - 1 distinct
earlier field lines, which cannot exist. -/
theorem c8_short_field_yields_zero (bugRows landscapeRows : List (List Char))
    (h : (reader landscapeRows).length < (read_bug bugRows).length) :
    bugCountResult bugRows landscapeRows = .ok 0 := by
  unfold bugCountResult find_bugs_in_landscape
  obtain ⟨s', hrun, hcount⟩ := processLines_short (read_bug bugRows)
    (read_bug_pattern_isSome bugRows) (reader landscapeRows) []
    { bug := read_bug bugRows, bug_part_matches := fun _ _ => none, bug_count := 0 }
    rfl (fun ℓ i hne => absurd rfl hne) (by simpa using h)
  rw [hrun]
  rw [show Except.map BugFinder.bug_count (.ok s' : Except EngineError BugFinder) =
    .ok s'.bug_count from rfl]
  rw [hcount]

/-- C8 witness: a two-row shape against a one-line field. -/
theorem c8_witness : bugCountResult [['a'], ['b']] [['a']] = .ok 0 :=
  c8_short_field_yields_zero [['a'], ['b']] [['a']] (by decide)


/-- The finditer output of shape row j against the line with id ln: the
columns that would be registered when row j is evaluated on that line.
Empty when there is no such line, no such row, or no compiled
pattern. -/
def matchesList (bug : List Bug.Part) (field : List Line) (ln : Int) (j : Nat) : List Nat :=
  match rowPattern bug j, fieldText field ln with
  | some (a, cs), some t => finditer a cs t
  | _, _ => []

/-- Is ln the id of some field line? -/
def isFieldLineB (field : List Line) (ln : Int) : Bool :=
  (fieldText field ln).isSome

theorem mem_matchesList (bug : List Bug.Part) (field : List Line) (ln : Int) (j : Nat)
    (c : Nat) :
    c ∈ matchesList bug field ln j ↔ rowMatchedAt bug field ln j c = true := by
  rcases hp : rowPattern bug j with _ | ⟨a, cs⟩ <;>
    rcases hf : fieldText field ln with _ | t <;>
      simp [matchesList, rowMatchedAt, hp, hf, mem_finditer]

theorem matchesList_pairwise (bug : List Bug.Part) (field : List Line) (ln : Int)
    (j : Nat) : (matchesList bug field ln j).Pairwise (· < ·) := by
  rcases hp : rowPattern bug j with _ | ⟨a, cs⟩ <;>
    rcases hf : fieldText field ln with _ | t <;>
      simp [matchesList, hp, hf, finditer_pairwise]

theorem matchesList_nodup (bug : List Bug.Part) (field : List Line) (ln : Int)
    (j : Nat) : (matchesList bug field ln j).Nodup :=
  (matchesList_pairwise bug field ln j).imp Nat.ne_of_lt

theorem rowMatchedAt_isFieldLine {bug : List Bug.Part} {field : List Line} {ln : Int}
    {j : Nat} {c : Nat} (h : rowMatchedAt bug field ln j c = true) :
    isFieldLineB field ln = true := by
  unfold rowMatchedAt at h
  unfold isFieldLineB
  rcases hp : rowPattern bug j with _ | ⟨a, cs⟩ <;>
    rcases hf : fieldText field ln with _ | t <;> rw [hp, hf] at h <;> simp_all

theorem isFieldLineB_mem {field : List Line} {ln : Int}
    (h : isFieldLineB field ln = true) : ∃ L ∈ field, L.id = ln := by
  unfold isFieldLineB fieldText at h
  cases hf : field.find? (fun l => l.id == ln) with
  | none => rw [hf] at h; exact Bool.noConfusion h
  | some L =>
    refine ⟨L, List.mem_of_find?_eq_some hf, ?_⟩
    have := List.find?_some hf
    exact beq_iff_eq.mp this

theorem isFieldLineB_nonneg {field : List Line} {ln : Int}
    (h0 : ∀ L ∈ field, 0 ≤ L.id) (h : isFieldLineB field ln = true) : 0 ≤ ln := by
  obtain ⟨L, hm, rfl⟩ := isFieldLineB_mem h
  exact h0 L hm

theorem chainAt_component {bug : List Bug.Part} {field : List Line} {B : Int} {c : Nat}
    (h : chainAt bug field B c = true) (j : Nat) (hj : j < bug.length) :
    rowMatchedAt bug field (B - ((bug.length - 1 - j : Nat) : Int)) j c = true := by
  unfold chainAt at h
  rw [List.all_eq_true] at h
  exact h j (List.mem_range.mpr hj)

theorem chainAt_intro {bug : List Bug.Part} {field : List Line} {B : Int} {c : Nat}
    (h : ∀ j < bug.length,
      rowMatchedAt bug field (B - ((bug.length - 1 - j : Nat) : Int)) j c = true) :
    chainAt bug field B c = true := by
  unfold chainAt
  rw [List.all_eq_true]
  exact fun j hj => h j (List.mem_range.mp hj)

/-- The part-loop status of line ln after considering the first j parts,
computed in closed form for a shape with contiguous ids: the first
component tells whether the loop reaches part j (pruning rule 2, the
break, has not fired on an earlier part), the second whether part j is
then actually evaluated (pruning rule 1, the continue, does not skip
it).  On lines that are not field lines nothing runs. -/
def lineStatus (bug : List Bug.Part) (field : List Line) : Nat → Int → Bool × Bool
  | 0, ln => (isFieldLineB field ln, isFieldLineB field ln)
  | j + 1, ln =>
    let r := (lineStatus bug field j ln).1
    let p := (lineStatus bug field j ln).2
    let brk := p && decide (ln - (j : Int) ≤ 0) && (matchesList bug field ln j).isEmpty
    let r' := r && !brk
    let skip := decide (1 ≤ ln) &&
      !((lineStatus bug field j (ln - 1)).2 && !(matchesList bug field (ln - 1) j).isEmpty)
    (r', r' && !skip)

/-- Whether the part loop of line ln reaches part j. -/
def reachedCF (bug : List Bug.Part) (field : List Line) (ln : Int) (j : Nat) : Bool :=
  (lineStatus bug field j ln).1

/-- Whether part j is evaluated on line ln (reached and not skipped). -/
def processedCF (bug : List Bug.Part) (field : List Line) (ln : Int) (j : Nat) : Bool :=
  (lineStatus bug field j ln).2

theorem isFieldLineB_of_reachedCF {bug : List Bug.Part} {field : List Line} {ln : Int} :
    ∀ {j : Nat}, reachedCF bug field ln j = true → isFieldLineB field ln = true := by
  intro j
  induction j with
  | zero => exact fun h => h
  | succ j ih =>
    intro h
    unfold reachedCF lineStatus at h
    simp only [Bool.and_eq_true] at h
    exact ih h.1

theorem reachedCF_of_processedCF {bug : List Bug.Part} {field : List Line} {ln : Int} :
    ∀ {j : Nat}, processedCF bug field ln j = true → reachedCF bug field ln j = true := by
  intro j
  cases j with
  | zero => exact fun h => h
  | succ j =>
    intro h
    unfold processedCF lineStatus at h
    simp only [Bool.and_eq_true] at h
    unfold reachedCF lineStatus
    simp only [Bool.and_eq_true]
    exact h.1

theorem isFieldLineB_of_processedCF {bug : List Bug.Part} {field : List Line} {ln : Int}
    {j : Nat} (h : processedCF bug field ln j = true) : isFieldLineB field ln = true :=
  isFieldLineB_of_reachedCF (reachedCF_of_processedCF h)

theorem reachedCF_zero (bug : List Bug.Part) (field : List Line) (ln : Int) :
    reachedCF bug field ln 0 = isFieldLineB field ln := rfl

theorem processedCF_zero (bug : List Bug.Part) (field : List Line) (ln : Int) :
    processedCF bug field ln 0 = isFieldLineB field ln := rfl

theorem reachedCF_succ (bug : List Bug.Part) (field : List Line) (ln : Int) (j : Nat) :
    reachedCF bug field ln (j + 1) =
      (reachedCF bug field ln j &&
        !(processedCF bug field ln j && decide (ln - (j : Int) ≤ 0) &&
          (matchesList bug field ln j).isEmpty)) := rfl

theorem processedCF_succ (bug : List Bug.Part) (field : List Line) (ln : Int) (j : Nat) :
    processedCF bug field ln (j + 1) =
      (reachedCF bug field ln (j + 1) &&
        !(decide (1 ≤ ln) &&
          !(processedCF bug field (ln - 1) j &&
            !(matchesList bug field (ln - 1) j).isEmpty))) := rfl

/-- A line whose id is at least j always reaches part j: pruning rule 2
can only fire on a part whose index is at least the line id. -/
theorem reachedCF_of_le {bug : List Bug.Part} {field : List Line} {ln : Int}
    (hf : isFieldLineB field ln = true) :
    ∀ j : Nat, (j : Int) ≤ ln → reachedCF bug field ln j = true := by
  intro j
  induction j with
  | zero => exact fun _ => hf
  | succ j ih =>
    intro hle
    rw [reachedCF_succ, ih (by push_cast at hle ⊢; omega)]
    have hd : decide (ln - (j : Int) ≤ 0) = false := by
      rw [decide_eq_false_iff_not]
      push_cast at hle
      omega
    rw [hd]
    simp

/-- Harmlessness of the pruning rules, contrapositive form: a cell that
carries a full occurrence is always evaluated.  If row j of the shape
belongs to an occurrence whose bottom row falls on line ln + (n-1-j),
then the part loop of line ln evaluates part j. -/
theorem processedCF_of_chainAt {bug : List Bug.Part} {field : List Line}
    (h0 : ∀ L ∈ field, 0 ≤ L.id) :
    ∀ (j : Nat) (ln : Int) (c : Nat), j < bug.length →
      chainAt bug field (ln + ((bug.length - 1 - j : Nat) : Int)) c = true →
      processedCF bug field ln j = true := by
  intro j
  induction j with
  | zero =>
    intro ln c hj hch
    have h00 := chainAt_component hch 0 hj
    rw [show (ln + ((bug.length - 1 - 0 : Nat) : Int)) -
      ((bug.length - 1 - 0 : Nat) : Int) = ln by ring] at h00
    rw [processedCF_zero]
    exact rowMatchedAt_isFieldLine h00
  | succ j ih =>
    intro ln c hj hch
    have hBeq : ln + ((bug.length - 1 - (j + 1) : Nat) : Int) =
        (ln - 1) + ((bug.length - 1 - j : Nat) : Int) := by omega
    have hch' : chainAt bug field ((ln - 1) + ((bug.length - 1 - j : Nat) : Int)) c
        = true := by
      rw [← hBeq]
      exact hch
    have hpj : processedCF bug field (ln - 1) j = true := ih (ln - 1) c (by omega) hch'
    have hcomp_j1 : rowMatchedAt bug field ln (j + 1) c = true := by
      have hx := chainAt_component hch (j + 1) hj
      rw [show (ln + ((bug.length - 1 - (j + 1) : Nat) : Int)) -
        ((bug.length - 1 - (j + 1) : Nat) : Int) = ln by ring] at hx
      exact hx
    have hcomp_j : rowMatchedAt bug field (ln - 1) j c = true := by
      have hx := chainAt_component hch j (by omega)
      rw [show (ln + ((bug.length - 1 - (j + 1) : Nat) : Int)) -
        ((bug.length - 1 - j : Nat) : Int) = ln - 1 by omega] at hx
      exact hx
    have hcomp_0 : rowMatchedAt bug field (ln - ((j : Int) + 1)) 0 c = true := by
      have hx := chainAt_component hch 0 (by omega)
      rw [show (ln + ((bug.length - 1 - (j + 1) : Nat) : Int)) -
        ((bug.length - 1 - 0 : Nat) : Int) = ln - ((j : Int) + 1) by omega] at hx
      exact hx
    have hfl : isFieldLineB field ln = true := rowMatchedAt_isFieldLine hcomp_j1
    have hge : ((j : Int) + 1) ≤ ln := by
      have := isFieldLineB_nonneg h0 (rowMatchedAt_isFieldLine hcomp_0)
      omega
    have hr : reachedCF bug field ln (j + 1) = true :=
      reachedCF_of_le hfl (j + 1) (by push_cast; omega)
    have hmne : (matchesList bug field (ln - 1) j).isEmpty = false := by
      have hm : c ∈ matchesList bug field (ln - 1) j :=
        (mem_matchesList bug field (ln - 1) j c).mpr hcomp_j
      cases hml : matchesList bug field (ln - 1) j with
      | nil =>
        rw [hml] at hm
        cases hm
      | cons x xs => rfl
    rw [processedCF_succ, hr, hpj, hmne]
    simp

theorem chainAt_false_of_not_processed {bug : List Bug.Part} {field : List Line}
    (h0 : ∀ L ∈ field, 0 ≤ L.id) {j : Nat} {ln : Int} (hj : j < bug.length)
    (h : processedCF bug field ln j = false) (c : Nat) :
    chainAt bug field (ln + ((bug.length - 1 - j : Nat) : Int)) c = false := by
  cases hch : chainAt bug field (ln + ((bug.length - 1 - j : Nat) : Int)) c with
  | false => rfl
  | true =>
    rw [processedCF_of_chainAt h0 j ln c hj hch] at h
    exact Bool.noConfusion h

theorem fieldText_of_mem {field : List Line}
    (hinc : (field.map Line.id).Pairwise (· < ·)) {L : Line} (hm : L ∈ field) :
    fieldText field L.id = some L.pattern := by
  induction field with
  | nil => cases hm
  | cons h rest ih =>
    rw [List.map_cons, List.pairwise_cons] at hinc
    unfold fieldText
    rcases List.mem_cons.mp hm with rfl | hm'
    · rw [List.find?_cons_of_pos _ (by simp)]
      rfl
    · have hlt : h.id < L.id := hinc.1 L.id (List.mem_map_of_mem Line.id hm')
      rw [List.find?_cons_of_neg _ (by simp; omega)]
      exact ih hinc.2 hm'

theorem get?_id_of_contig {bug : List Bug.Part}
    (hn : bug.map Bug.Part.id = (List.range bug.length).map Int.ofNat)
    {j : Nat} {p : Bug.Part} (hp : bug.get? j = some p) : p.id = (j : Int) := by
  have h1 : (bug.map Bug.Part.id).get? j = some p.id := by
    rw [List.get?_map, hp]
    rfl
  obtain ⟨hj, -⟩ := List.get?_eq_some.mp hp
  rw [hn, List.get?_map, List.get?_range hj] at h1
  exact ((Option.some.injEq _ _).mp h1).symm

theorem map_id_getLast {bug : List Bug.Part}
    (hn : bug.map Bug.Part.id = (List.range bug.length).map Int.ofNat)
    (hne : bug ≠ []) :
    (bug.map Bug.Part.id).getLast? = some ((bug.length - 1 : Nat) : Int) := by
  rw [hn]
  cases hlen : bug.length with
  | zero => exact absurd (List.length_eq_zero.mp hlen) hne
  | succ m =>
    rw [List.range_succ, List.map_append, List.map_singleton, List.getLast?_concat]
    rfl

theorem map_dropLast_reverse_id {bug : List Bug.Part}
    (hn : bug.map Bug.Part.id = (List.range bug.length).map Int.ofNat) :
    bug.dropLast.reverse.map Bug.Part.id =
      ((List.range (bug.length - 1)).map Int.ofNat).reverse := by
  rw [List.map_reverse, List.map_dropLast, hn]
  congr 1
  cases hlen : bug.length with
  | zero => rfl
  | succ m =>
    rw [List.range_succ, List.map_append, List.map_singleton, List.dropLast_concat]
    rfl

/-- The membership pattern of a walk identified by the visited inner
keys only: memChain depends on the parts only through their ids. -/
def idsChain (pos : Nat) : List Int → Int → MatchTable → Prop
  | [], _, _ => True
  | i :: rest, ln, t => pos ∈ getEntry t ln i ∧ idsChain pos rest (ln - 1) t

theorem memChain_eq_idsChain (pos : Nat) (l : List Bug.Part) :
    ∀ (ln : Int) (t : MatchTable),
      memChain pos l ln t ↔ idsChain pos (l.map Bug.Part.id) ln t := by
  induction l with
  | nil => exact fun ln t => Iff.rfl
  | cons part rest ih =>
    intro ln t
    rw [List.map_cons, memChain, idsChain, ih (ln - 1) t]

theorem idsChain_range_rev (pos : Nat) (t : MatchTable) :
    ∀ (m : Nat) (ln : Int),
      idsChain pos (((List.range m).map Int.ofNat).reverse) ln t ↔
        ∀ k : Nat, k < m →
          pos ∈ getEntry t (ln - (k : Int)) ((m - 1 - k : Nat) : Int) := by
  intro m
  induction m with
  | zero =>
    intro ln
    simp [idsChain]
  | succ m ih =>
    intro ln
    have hsplit : ((List.range (m + 1)).map Int.ofNat).reverse =
        Int.ofNat m :: ((List.range m).map Int.ofNat).reverse := by
      rw [List.range_succ, List.map_append, List.map_singleton, List.reverse_append]
      rfl
    rw [hsplit, idsChain, ih (ln - 1)]
    constructor
    · rintro ⟨h0, hr⟩ k hk
      cases k with
      | zero =>
        have e1 : ln - ((0 : Nat) : Int) = ln := by omega
        have e2 : ((m + 1 - 1 - 0 : Nat) : Int) = Int.ofNat m := by
          rw [Int.ofNat_eq_natCast]
          omega
        rw [e1, e2]
        exact h0
      | succ k =>
        have := hr k (by omega)
        have e1 : ln - 1 - (k : Int) = ln - ((k + 1 : Nat) : Int) := by push_cast; ring
        have e2 : ((m - 1 - k : Nat) : Int) = ((m + 1 - 1 - (k + 1) : Nat) : Int) := by omega
        rw [e1, e2] at this
        exact this
    · intro h
      constructor
      · have := h 0 (by omega)
        have e1 : ln - ((0 : Nat) : Int) = ln := by omega
        have e2 : ((m + 1 - 1 - 0 : Nat) : Int) = Int.ofNat m := by
          rw [Int.ofNat_eq_natCast]
          omega
        rw [e1, e2] at this
        exact this
      · intro k hk
        have := h (k + 1) (by omega)
        have e1 : ln - ((k + 1 : Nat) : Int) = ln - 1 - (k : Int) := by push_cast; ring
        have e2 : ((m + 1 - 1 - (k + 1) : Nat) : Int) = ((m - 1 - k : Nat) : Int) := by omega
        rw [e1, e2] at this
        exact this

/-- For a shape with contiguous ids, the belongs check of a part whose
id is the bottom id holds iff the position is registered for part
n-1-k at line id minus k, for every k from 1 to n-1. -/
theorem belongs_true_iff_contig {bug : List Bug.Part}
    (hn : bug.map Bug.Part.id = (List.range bug.length).map Int.ofNat)
    (hne : bug ≠ []) (s : BugFinder) (hs : s.bug = bug) (bp : Bug.Part)
    (hbp : bp.id = ((bug.length - 1 : Nat) : Int)) (line : Line) (pos : Nat) :
    (bug_part_match_belongs_to_a_bug s bp line pos).1 = true ↔
      ∀ k : Nat, 1 ≤ k → k < bug.length →
        pos ∈ getEntry s.bug_part_matches (line.id - (k : Int))
          ((bug.length - 1 - k : Nat) : Int) := by
  unfold bug_part_match_belongs_to_a_bug
  rw [hs, map_id_getLast hn hne]
  dsimp only
  rw [if_pos hbp]
  rw [belongsAux_true_iff, memChain_eq_idsChain, map_dropLast_reverse_id hn]
  rw [idsChain_range_rev pos s.bug_part_matches (bug.length - 1) (line.id - 1)]
  constructor
  · intro h k h1 hk
    have hres := h (k - 1) (by omega)
    have e1 : line.id - 1 - ((k - 1 : Nat) : Int) = line.id - (k : Int) := by omega
    have e2 : ((bug.length - 1 - 1 - (k - 1) : Nat) : Int) =
        ((bug.length - 1 - k : Nat) : Int) := by omega
    rw [e1, e2] at hres
    exact hres
  · intro h k hk
    have hres := h (k + 1) (by omega) (by omega)
    have e1 : line.id - ((k + 1 : Nat) : Int) = line.id - 1 - (k : Int) := by
      push_cast
      ring
    have e2 : ((bug.length - 1 - (k + 1) : Nat) : Int) =
        ((bug.length - 1 - 1 - k : Nat) : Int) := by omega
    rw [e1, e2] at hres
    exact hres

/-- A part whose id is not the bottom id never completes a bug: the
belongs check returns false and leaves the table untouched. -/
theorem belongs_nonlast {bug : List Bug.Part}
    (hn : bug.map Bug.Part.id = (List.range bug.length).map Int.ofNat)
    (s : BugFinder) (hs : s.bug = bug) (bp : Bug.Part) (line : Line) (pos : Nat)
    (hbp : bp.id ≠ ((bug.length - 1 : Nat) : Int)) :
    bug_part_match_belongs_to_a_bug s bp line pos = (false, s.bug_part_matches) := by
  unfold bug_part_match_belongs_to_a_bug
  rw [hs]
  by_cases hb : bug = []
  · subst hb
    rfl
  · rw [map_id_getLast hn hb]
    dsimp only
    rw [if_neg hbp]

theorem erase_eq_filter_of_count_le_one (l : List Nat) (a : Nat)
    (h : l.count a ≤ 1) : l.erase a = l.filter (fun x => !(x == a)) := by
  induction l with
  | nil => rfl
  | cons x xs ih =>
    by_cases hx : x = a
    · subst hx
      rw [List.erase_cons_head]
      rw [List.count_cons_self] at h
      have hnot : x ∉ xs := by
        intro hm
        have := List.count_pos_iff_mem.mpr hm
        omega
      rw [List.filter_cons_of_neg (by simp)]
      exact (List.filter_eq_self.mpr fun b hb => by
        simp only [Bool.not_eq_true', beq_eq_false_iff_ne]
        intro hba
        exact hnot (hba ▸ hb)).symm
    · rw [List.erase_cons_tail, List.filter_cons_of_pos (by simp [hx])]
      · rw [ih (le_trans (by rw [List.count_cons_of_ne (by omega)]) h)]
      · simp [hx]

theorem deregisterAux_rev_range (pos : Nat) :
    ∀ (parts : List Bug.Part) (m : Nat),
      parts.map Bug.Part.id = ((List.range m).map Int.ofNat).reverse →
      ∀ (ℓ : Int) (t : MatchTable),
        (∀ k : Nat, k < m → pos ∈ getEntry t (ℓ - (k : Int)) ((m - 1 - k : Nat) : Int)) →
        ∃ t', deregisterAux pos parts ℓ t = .ok t' ∧
          (∀ k : Nat, k < m →
            getEntry t' (ℓ - (k : Int)) ((m - 1 - k : Nat) : Int) =
              (getEntry t (ℓ - (k : Int)) ((m - 1 - k : Nat) : Int)).erase pos) ∧
          (∀ x y : Int,
            (∀ k : Nat, k < m → ¬(x = ℓ - (k : Int) ∧ y = ((m - 1 - k : Nat) : Int))) →
            getEntry t' x y = getEntry t x y) ∧
          (∀ x y : Int, ℓ < x → t' x y = t x y) ∧
          (∀ y : Int, (t' ℓ y).isSome ↔
            ((t ℓ y).isSome ∨ (0 < m ∧ y = ((m - 1 : Nat) : Int)))) := by
  intro parts
  induction parts with
  | nil =>
    intro m hm ℓ t _
    have hm0 : m = 0 := by
      by_contra hm0
      obtain ⟨m', rfl⟩ := Nat.exists_eq_succ_of_ne_zero hm0
      have : ((List.range (m' + 1)).map Int.ofNat).reverse =
          Int.ofNat m' :: ((List.range m').map Int.ofNat).reverse := by
        rw [List.range_succ, List.map_append, List.map_singleton, List.reverse_append]
        rfl
      rw [this] at hm
      exact List.noConfusion hm
    subst hm0
    exact ⟨t, rfl, fun k hk => absurd hk (by omega),
      fun x y _ => rfl, fun x y _ => rfl, fun y => by simp⟩
  | cons p rest ih =>
    intro m hm ℓ t hmem
    cases m with
    | zero =>
      rw [List.map_cons] at hm
      exact absurd hm (by simp)
    | succ m' =>
      have hsplit : ((List.range (m' + 1)).map Int.ofNat).reverse =
          Int.ofNat m' :: ((List.range m').map Int.ofNat).reverse := by
        rw [List.range_succ, List.map_append, List.map_singleton, List.reverse_append]
        rfl
      rw [List.map_cons, hsplit] at hm
      have hpid : p.id = Int.ofNat m' := (List.cons.injEq _ _ _ _ ▸ hm).1
      have hrest : rest.map Bug.Part.id = ((List.range m').map Int.ofNat).reverse :=
        (List.cons.injEq _ _ _ _ ▸ hm).2
      have hmem0 : pos ∈ getEntry t ℓ p.id := by
        have := hmem 0 (by omega)
        have e1 : ℓ - ((0 : Nat) : Int) = ℓ := by omega
        have e2 : ((m' + 1 - 1 - 0 : Nat) : Int) = p.id := by
          rw [hpid, Int.ofNat_eq_natCast]
          omega
        rw [e1, e2] at this
        exact this
      rw [deregisterAux, removeFirst_eq_erase _ _ hmem0]
      set t1 := setEntry t ℓ p.id ((getEntry t ℓ p.id).erase pos) with ht1
      have hmem_rest : ∀ k : Nat, k < m' →
          pos ∈ getEntry t1 ((ℓ - 1) - (k : Int)) ((m' - 1 - k : Nat) : Int) := by
        intro k hk
        have hne : ¬((ℓ - 1) - (k : Int) = ℓ ∧ ((m' - 1 - k : Nat) : Int) = p.id) := by
          rintro ⟨h1, -⟩
          omega
        rw [ht1, getEntry_setEntry, if_neg hne]
        have := hmem (k + 1) (by omega)
        have e1 : ℓ - ((k + 1 : Nat) : Int) = (ℓ - 1) - (k : Int) := by push_cast; ring
        have e2 : ((m' + 1 - 1 - (k + 1) : Nat) : Int) = ((m' - 1 - k : Nat) : Int) := by
          omega
        rw [e1, e2] at this
        exact this
      obtain ⟨t', hrun, hupper, hframe, hfuture, hkeys⟩ :=
        ih m' hrest (ℓ - 1) t1 hmem_rest
      refine ⟨t', hrun, ?_, ?_, ?_, ?_⟩
      · intro k hk
        cases k with
        | zero =>
          have e1 : ℓ - ((0 : Nat) : Int) = ℓ := by omega
          have e2 : ((m' + 1 - 1 - 0 : Nat) : Int) = p.id := by
            rw [hpid, Int.ofNat_eq_natCast]
            omega
          rw [e1, e2]
          have hfut := hfuture ℓ p.id (by omega)
          have : getEntry t' ℓ p.id = getEntry t1 ℓ p.id := by
            unfold getEntry
            rw [hfut]
          rw [this, ht1, getEntry_setEntry, if_pos ⟨rfl, rfl⟩]
        | succ k =>
          have hk' : k < m' := by omega
          have e1 : ℓ - ((k + 1 : Nat) : Int) = (ℓ - 1) - (k : Int) := by push_cast; ring
          have e2 : ((m' + 1 - 1 - (k + 1) : Nat) : Int) = ((m' - 1 - k : Nat) : Int) := by
            omega
          rw [e1, e2, hupper k hk']
          have hne : ¬((ℓ - 1) - (k : Int) = ℓ ∧ ((m' - 1 - k : Nat) : Int) = p.id) := by
            rintro ⟨h1, -⟩
            omega
          rw [ht1, getEntry_setEntry, if_neg hne]
      · intro x y hxy
        have hrest_ne : ∀ k : Nat, k < m' →
            ¬(x = (ℓ - 1) - (k : Int) ∧ y = ((m' - 1 - k : Nat) : Int)) := by
          intro k hk
          have := hxy (k + 1) (by omega)
          intro hcon
          apply this
          constructor
          · rw [hcon.1]
            push_cast
            ring
          · rw [hcon.2]
            congr 1
            omega
        rw [hframe x y hrest_ne]
        have hne0 : ¬(x = ℓ ∧ y = p.id) := by
          have := hxy 0 (by omega)
          intro hcon
          apply this
          constructor
          · rw [hcon.1]
            omega
          · rw [hcon.2, hpid, Int.ofNat_eq_natCast]
            omega
        rw [ht1, getEntry_setEntry, if_neg hne0]
      · intro x y hx
        rw [hfuture x y (by omega), ht1, setEntry_ne]
        rintro ⟨rfl, -⟩
        omega
      · intro y
        rw [hfuture ℓ y (by omega), ht1]
        rw [setEntry_isSome]
        have e2 : p.id = ((m' + 1 - 1 : Nat) : Int) := by
          rw [hpid, Int.ofNat_eq_natCast]
          omega
        constructor
        · rintro (⟨-, rfl⟩ | hs)
          · exact Or.inr ⟨by omega, e2.symm ▸ rfl⟩
          · exact Or.inl hs
        · rintro (hs | ⟨-, rfl⟩)
          · exact Or.inr hs
          · exact Or.inl ⟨rfl, e2.symm⟩

/-- A non-bottom part match never completes a bug: the loop iteration
reduces to the registration alone. -/
theorem processOneMatch_nonlast {bug : List Bug.Part}
    (hn : bug.map Bug.Part.id = (List.range bug.length).map Int.ofNat)
    (bp : Bug.Part) (line : Line) (pos : Nat) (s : BugFinder) (hs : s.bug = bug)
    (hbp : bp.id ≠ ((bug.length - 1 : Nat) : Int)) :
    processOneMatch bp line pos s = .ok (register_bug_part_match s bp line pos) := by
  have hreg : (register_bug_part_match s bp line pos).bug = bug := by
    rw [register_bug, hs]
  have hbel := belongs_nonlast hn (register_bug_part_match s bp line pos) hreg bp line pos hbp
  rw [processOneMatch_eq, hbel]
  rw [if_neg Bool.false_ne_true]
  rfl

theorem register_count (s : BugFinder) (bp : Bug.Part) (line : Line) (pos : Nat) :
    (register_bug_part_match s bp line pos).bug_count = s.bug_count := rfl

theorem register_isSome (s : BugFinder) (bp : Bug.Part) (line : Line) (pos : Nat)
    (x y : Int) :
    ((register_bug_part_match s bp line pos).bug_part_matches x y).isSome ↔
      ((x = line.id ∧ y = bp.id) ∨ (s.bug_part_matches x y).isSome) := by
  unfold register_bug_part_match
  exact setEntry_isSome _ _ _ _ _ _

theorem processMatches_nonlast {bug : List Bug.Part}
    (hn : bug.map Bug.Part.id = (List.range bug.length).map Int.ofNat)
    (bp : Bug.Part) (line : Line)
    (hbp : bp.id ≠ ((bug.length - 1 : Nat) : Int)) :
    ∀ (ml : List Nat) (s : BugFinder), s.bug = bug →
      ∃ s', processMatches bp line ml s = .ok s' ∧
        s'.bug = bug ∧ s'.bug_count = s.bug_count ∧
        (∀ x y : Int, getEntry s'.bug_part_matches x y =
          if x = line.id ∧ y = bp.id then getEntry s.bug_part_matches x y ++ ml
          else getEntry s.bug_part_matches x y) ∧
        (∀ x y : Int, ((s'.bug_part_matches x y).isSome ↔
          ((s.bug_part_matches x y).isSome ∨ (x = line.id ∧ y = bp.id ∧ ml ≠ [])))) := by
  intro ml
  induction ml with
  | nil =>
    intro s hs
    refine ⟨s, rfl, hs, rfl, fun x y => ?_, fun x y => ?_⟩
    · split <;> simp
    · simp
  | cons pos rest ih =>
    intro s hs
    rw [processMatches, processOneMatch_nonlast hn bp line pos s hs hbp]
    dsimp only
    obtain ⟨s', hrun, hbug, hcount, hentry, hkeys⟩ :=
      ih (register_bug_part_match s bp line pos) (by rw [register_bug, hs])
    refine ⟨s', hrun, hbug, ?_, fun x y => ?_, fun x y => ?_⟩
    · rw [hcount, register_count]
    · rw [hentry x y, register_getEntry]
      by_cases hxy : x = line.id ∧ y = bp.id
      · rcases hxy with ⟨rfl, rfl⟩
        rw [if_pos ⟨rfl, rfl⟩, if_pos ⟨rfl, rfl⟩, if_pos ⟨rfl, rfl⟩, List.append_assoc]
        rfl
      · rw [if_neg hxy, if_neg hxy, if_neg hxy]
    · rw [hkeys x y, register_isSome]
      constructor
      · rintro ((hk | ho) | ⟨h1, h2, -⟩)
        · exact Or.inr ⟨hk.1, hk.2, by simp⟩
        · exact Or.inl ho
        · exact Or.inr ⟨h1, h2, by simp⟩
      · rintro (ho | ⟨h1, h2, -⟩)
        · exact Or.inl (Or.inr ho)
        · exact Or.inl (Or.inl ⟨h1, h2⟩)

theorem belongs_snd_ge (s : BugFinder) (bp : Bug.Part) (line : Line) (pos : Nat)
    (x y : Int) (hx : line.id ≤ x) :
    (bug_part_match_belongs_to_a_bug s bp line pos).2 x y = s.bug_part_matches x y := by
  unfold bug_part_match_belongs_to_a_bug
  cases (s.bug.map Bug.Part.id).getLast? with
  | none => rfl
  | some lastId =>
    dsimp only
    split
    · exact belongsAux_snd_ge pos _ _ _ x y hx
    · rfl

theorem register_raw_ne (s : BugFinder) (bp : Bug.Part) (line : Line) (pos : Nat)
    (x y : Int) (h : ¬(x = line.id ∧ y = bp.id)) :
    (register_bug_part_match s bp line pos).bug_part_matches x y =
      s.bug_part_matches x y := by
  unfold register_bug_part_match
  exact setEntry_ne _ _ _ _ _ _ h

/-- The bottom-part match loop: every position completing a chain is
counted and its cells retired; the others stay registered.  The
characteristic function ch abstracts which positions complete a chain,
with the membership tests the belongs walk performs as the interface. -/
theorem processMatches_bottom {bug : List Bug.Part}
    (hn : bug.map Bug.Part.id = (List.range bug.length).map Int.ofNat)
    (hne : bug ≠ []) (bp : Bug.Part) (line : Line)
    (hbp : bp.id = ((bug.length - 1 : Nat) : Int)) (ch : Nat → Bool) :
    ∀ (ml : List Nat) (s : BugFinder), s.bug = bug → ml.Nodup →
      (∀ c ∈ ml, c ∉ getEntry s.bug_part_matches line.id bp.id) →
      (∀ c ∈ ml, ((∀ k : Nat, 1 ≤ k → k < bug.length →
          c ∈ getEntry s.bug_part_matches (line.id - (k : Int))
            ((bug.length - 1 - k : Nat) : Int)) ↔ ch c = true)) →
      (∀ c ∈ ml, ∀ k : Nat, 1 ≤ k → k < bug.length →
        (getEntry s.bug_part_matches (line.id - (k : Int))
          ((bug.length - 1 - k : Nat) : Int)).count c ≤ 1) →
      ∃ s', processMatches bp line ml s = .ok s' ∧ s'.bug = bug ∧
        s'.bug_count = s.bug_count + (ml.filter (fun c => ch c)).length ∧
        getEntry s'.bug_part_matches line.id bp.id =
          getEntry s.bug_part_matches line.id bp.id ++ ml.filter (fun c => !ch c) ∧
        (∀ k : Nat, 1 ≤ k → k < bug.length →
          getEntry s'.bug_part_matches (line.id - (k : Int))
              ((bug.length - 1 - k : Nat) : Int) =
            (getEntry s.bug_part_matches (line.id - (k : Int))
              ((bug.length - 1 - k : Nat) : Int)).filter
              (fun c => !(decide (c ∈ ml) && ch c))) ∧
        (∀ x y : Int, ¬(x = line.id ∧ y = bp.id) →
          (∀ k : Nat, 1 ≤ k → k < bug.length →
            ¬(x = line.id - (k : Int) ∧ y = ((bug.length - 1 - k : Nat) : Int))) →
          getEntry s'.bug_part_matches x y = getEntry s.bug_part_matches x y) ∧
        (∀ x y : Int, line.id < x → s'.bug_part_matches x y = s.bug_part_matches x y) ∧
        (∀ y : Int, ((s'.bug_part_matches line.id y).isSome ↔
          ((s.bug_part_matches line.id y).isSome ∨ (y = bp.id ∧ ml ≠ [])))) := by
  intro ml
  induction ml with
  | nil =>
    intro s hs _ _ _ _
    refine ⟨s, rfl, hs, by simp, by simp, fun k h1 h2 => ?_, fun x y _ _ => rfl,
      fun x y _ => rfl, fun y => by simp⟩
    rw [List.filter_eq_self.mpr]
    intro a _
    simp
  | cons pos rest ih =>
    intro s hs hnd hC hA hD
    have hs1bug : (register_bug_part_match s bp line pos).bug = bug := by
      rw [register_bug, hs]
    have hentry_frame : ∀ k : Nat, 1 ≤ k → k < bug.length →
        getEntry (register_bug_part_match s bp line pos).bug_part_matches
            (line.id - (k : Int)) ((bug.length - 1 - k : Nat) : Int) =
          getEntry s.bug_part_matches (line.id - (k : Int))
            ((bug.length - 1 - k : Nat) : Int) := by
      intro k h1 _
      rw [register_getEntry, if_neg]
      rintro ⟨h2, -⟩
      omega
    have hbeliff : (bug_part_match_belongs_to_a_bug
        (register_bug_part_match s bp line pos) bp line pos).1 = true ↔ ch pos = true := by
      rw [belongs_true_iff_contig hn hne _ hs1bug bp hbp line pos]
      rw [← hA pos (List.mem_cons_self pos rest)]
      constructor
      · intro h k h1 h2
        rw [← hentry_frame k h1 h2]
        exact h k h1 h2
      · intro h k h1 h2
        rw [hentry_frame k h1 h2]
        exact h k h1 h2
    have hb2entry : ∀ x y : Int,
        getEntry (bug_part_match_belongs_to_a_bug
          (register_bug_part_match s bp line pos) bp line pos).2 x y =
          getEntry (register_bug_part_match s bp line pos).bug_part_matches x y :=
      getEntry_belongs_snd _ bp line pos
    have hbp0 : ((bug.length - 1 - 0 : Nat) : Int) = bp.id := by
      rw [hbp]
      omega
    have hposmem : pos ∉ getEntry s.bug_part_matches line.id bp.id :=
      hC pos (List.mem_cons_self pos rest)
    have hlen : 0 < bug.length := by
      cases hb : bug.length with
      | zero => exact absurd (List.length_eq_zero.mp hb) hne
      | succ m => omega
    by_cases hch : ch pos = true
    · -- the position completes a bug: counted and retired
      have hbeltrue := hbeliff.mpr hch
      rw [processMatches, processOneMatch_eq, hbeltrue, if_pos rfl]
      rw [deregister_bug_match_fields]
      have hrevmap : s.bug.reverse.map Bug.Part.id =
          ((List.range bug.length).map Int.ofNat).reverse := by
        rw [List.map_reverse, hs, hn]
      have hmemall : ∀ k : Nat, k < bug.length →
          pos ∈ getEntry (bug_part_match_belongs_to_a_bug
            (register_bug_part_match s bp line pos) bp line pos).2
            (line.id - (k : Int)) ((bug.length - 1 - k : Nat) : Int) := by
        intro k hk
        rw [hb2entry]
        cases k with
        | zero =>
          have e1 : line.id - ((0 : Nat) : Int) = line.id := by omega
          rw [e1, hbp0, register_getEntry, if_pos ⟨rfl, rfl⟩]
          exact List.mem_append_right _ (List.mem_singleton.mpr rfl)
        | succ k =>
          rw [hentry_frame (k + 1) (by omega) hk]
          exact ((hA pos (List.mem_cons_self pos rest)).mpr hch) (k + 1) (by omega) hk
      obtain ⟨t', hrund, hupperd, hframed, hfutured, hkeysd⟩ :=
        deregisterAux_rev_range pos s.bug.reverse bug.length hrevmap line.id
          (bug_part_match_belongs_to_a_bug
            (register_bug_part_match s bp line pos) bp line pos).2 hmemall
      rw [hrund]
      dsimp only
      have ht'bot : getEntry t' line.id bp.id =
          getEntry s.bug_part_matches line.id bp.id := by
        have h0 := hupperd 0 hlen
        have e1 : line.id - ((0 : Nat) : Int) = line.id := by omega
        rw [e1, hbp0] at h0
        rw [h0, hb2entry, register_getEntry, if_pos ⟨rfl, rfl⟩]
        rw [List.erase_append_right _ hposmem]
        simp
      have ht'upper : ∀ k : Nat, 1 ≤ k → k < bug.length →
          getEntry t' (line.id - (k : Int)) ((bug.length - 1 - k : Nat) : Int) =
            (getEntry s.bug_part_matches (line.id - (k : Int))
              ((bug.length - 1 - k : Nat) : Int)).erase pos := by
        intro k h1 h2
        rw [hupperd k h2, hb2entry, hentry_frame k h1 h2]
      obtain ⟨s', hrun, hbug, hcount, hbot, hupper, hframe, hfuture, hkeys⟩ :=
        ih { bug := s.bug, bug_part_matches := t', bug_count := s.bug_count + 1 }
          hs (List.Nodup.of_cons hnd)
          (by
            intro c hc
            dsimp only
            rw [ht'bot]
            exact hC c (List.mem_cons_of_mem pos hc))
          (by
            intro c hc
            have hcne : c ≠ pos := by
              intro hcp
              rw [hcp] at hc
              exact (List.nodup_cons.mp hnd).1 hc
            rw [← hA c (List.mem_cons_of_mem pos hc)]
            constructor
            · intro h k h1 h2
              have hmem := h k h1 h2
              dsimp only at hmem
              rw [ht'upper k h1 h2] at hmem
              exact (List.mem_erase_of_ne hcne).mp hmem
            · intro h k h1 h2
              dsimp only
              rw [ht'upper k h1 h2]
              exact (List.mem_erase_of_ne hcne).mpr (h k h1 h2))
          (by
            intro c hc k h1 h2
            dsimp only
            rw [ht'upper k h1 h2]
            calc ((getEntry s.bug_part_matches (line.id - (k : Int))
                ((bug.length - 1 - k : Nat) : Int)).erase pos).count c
                ≤ (getEntry s.bug_part_matches (line.id - (k : Int))
                  ((bug.length - 1 - k : Nat) : Int)).count c :=
                  (List.erase_sublist _ _).count_le c
              _ ≤ 1 := hD c (List.mem_cons_of_mem pos hc) k h1 h2)
      refine ⟨s', hrun, hbug, ?_, ?_, ?_, ?_, ?_, ?_⟩
      · rw [hcount]
        dsimp only
        rw [List.filter_cons_of_pos (by simpa using hch), List.length_cons]
        omega
      · rw [hbot]
        dsimp only
        rw [ht'bot, List.filter_cons_of_neg (by simpa using hch)]
      · intro k h1 h2
        rw [hupper k h1 h2]
        dsimp only
        rw [ht'upper k h1 h2]
        rw [erase_eq_filter_of_count_le_one _ _
          (hD pos (List.mem_cons_self pos rest) k h1 h2)]
        rw [List.filter_filter]
        apply List.filter_congr
        intro a _
        by_cases hap : a = pos
        · subst hap
          simp [hch]
        · simp [hap]
      · intro x y hne1 hne2
        rw [hframe x y hne1 hne2]
        dsimp only
        have hall : ∀ k : Nat, k < bug.length →
            ¬(x = line.id - (k : Int) ∧ y = ((bug.length - 1 - k : Nat) : Int)) := by
          intro k hk
          cases k with
          | zero =>
            rintro ⟨hx, hy⟩
            apply hne1
            rw [hbp0] at hy
            exact ⟨by omega, hy⟩
          | succ k => exact hne2 (k + 1) (by omega) hk
        rw [hframed x y hall, hb2entry, register_getEntry, if_neg hne1]
      · intro x y hx
        rw [hfuture x y hx]
        dsimp only
        rw [hfutured x y hx, belongs_snd_ge _ bp line pos x y (by omega)]
        rw [register_raw_ne]
        rintro ⟨rfl, -⟩
        omega
      · intro y
        rw [hkeys y]
        dsimp only
        rw [hkeysd y, belongs_snd_ge _ bp line pos line.id y le_rfl]
        have hreg := register_isSome s bp line pos line.id y
        constructor
        · rintro ((hk | ⟨-, rfl⟩) | ⟨rfl, -⟩)
          · rcases hreg.mp hk with ⟨-, rfl⟩ | ho
            · exact Or.inr ⟨rfl, by simp⟩
            · exact Or.inl ho
          · exact Or.inr ⟨hbp.symm, by simp⟩
          · exact Or.inr ⟨rfl, by simp⟩
        · rintro (ho | ⟨rfl, -⟩)
          · exact Or.inl (Or.inl (hreg.mpr (Or.inr ho)))
          · exact Or.inl (Or.inl (hreg.mpr (Or.inl ⟨rfl, rfl⟩)))
    · -- the position does not complete a bug: registered only
      have hbelfalse : (bug_part_match_belongs_to_a_bug
          (register_bug_part_match s bp line pos) bp line pos).1 = false := by
        cases hb : (bug_part_match_belongs_to_a_bug
          (register_bug_part_match s bp line pos) bp line pos).1 with
        | false => rfl
        | true => exact absurd (hbeliff.mp hb) hch
      rw [processMatches, processOneMatch_eq, hbelfalse, if_neg Bool.false_ne_true]
      dsimp only
      obtain ⟨s', hrun, hbug, hcount, hbot, hupper, hframe, hfuture, hkeys⟩ :=
        ih { bug := (register_bug_part_match s bp line pos).bug,
             bug_part_matches := (bug_part_match_belongs_to_a_bug
               (register_bug_part_match s bp line pos) bp line pos).2,
             bug_count := (register_bug_part_match s bp line pos).bug_count }
          (by rw [register_bug, hs]) (List.Nodup.of_cons hnd)
          (by
            intro c hc
            have hcne : c ≠ pos := by
              intro hcp
              rw [hcp] at hc
              exact (List.nodup_cons.mp hnd).1 hc
            dsimp only
            rw [hb2entry, register_getEntry, if_pos ⟨rfl, rfl⟩]
            intro hmem
            rcases List.mem_append.mp hmem with hm | hm
            · exact hC c (List.mem_cons_of_mem pos hc) hm
            · exact hcne (List.mem_singleton.mp hm))
          (by
            intro c hc
            rw [← hA c (List.mem_cons_of_mem pos hc)]
            constructor
            · intro h k h1 h2
              have hmem := h k h1 h2
              dsimp only at hmem
              rw [hb2entry, hentry_frame k h1 h2] at hmem
              exact hmem
            · intro h k h1 h2
              dsimp only
              rw [hb2entry, hentry_frame k h1 h2]
              exact h k h1 h2)
          (by
            intro c hc k h1 h2
            dsimp only
            rw [hb2entry, hentry_frame k h1 h2]
            exact hD c (List.mem_cons_of_mem pos hc) k h1 h2)
      refine ⟨s', hrun, hbug, ?_, ?_, ?_, ?_, ?_, ?_⟩
      · rw [hcount]
        dsimp only
        rw [List.filter_cons_of_neg (by simpa using hch), register_count]
      · rw [hbot]
        dsimp only
        rw [hb2entry, register_getEntry, if_pos ⟨rfl, rfl⟩]
        rw [List.filter_cons_of_pos (by simpa using hch), List.append_assoc]
        rfl
      · intro k h1 h2
        rw [hupper k h1 h2]
        dsimp only
        rw [hb2entry, hentry_frame k h1 h2]
        apply List.filter_congr
        intro a _
        by_cases hap : a = pos
        · subst hap
          simp [hch]
        · simp [hap]
      · intro x y hne1 hne2
        rw [hframe x y hne1 hne2]
        dsimp only
        rw [hb2entry, register_getEntry, if_neg hne1]
      · intro x y hx
        rw [hfuture x y hx]
        dsimp only
        rw [belongs_snd_ge _ bp line pos x y (by omega), register_raw_ne]
        rintro ⟨rfl, -⟩
        omega
      · intro y
        rw [hkeys y]
        dsimp only
        rw [belongs_snd_ge _ bp line pos line.id y le_rfl]
        have hreg := register_isSome s bp line pos line.id y
        constructor
        · rintro (hk | ⟨rfl, -⟩)
          · rcases hreg.mp hk with ⟨-, rfl⟩ | ho
            · exact Or.inr ⟨rfl, by simp⟩
            · exact Or.inl ho
          · exact Or.inr ⟨rfl, by simp⟩
        · rintro (ho | ⟨rfl, -⟩)
          · exact Or.inl (hreg.mpr (Or.inr ho))
          · exact Or.inl (hreg.mpr (Or.inl ⟨rfl, rfl⟩))

/-- Is x the id of one of the already fully processed field lines? -/
def doneB (done : List Line) (x : Int) : Bool :=
  done.any fun L => L.id == x

/-- The entry the pruned engine's table holds at cell (x, j) after the
lines of done are fully processed: the matches found there if part j was
evaluated on line x and that line is done, minus the columns retired by
occurrences whose bottom line is itself done. -/
def expectedEntry (bug : List Bug.Part) (field : List Line) (done : List Line)
    (x : Int) (j : Nat) : List Nat :=
  if processedCF bug field x j && doneB done x then
    (matchesList bug field x j).filter
      (fun c => !(chainAt bug field (x + ((bug.length - 1 - j : Nat) : Int)) c &&
        doneB done (x + ((bug.length - 1 - j : Nat) : Int))))
  else []

/-- The same for the disabled-pruning engine, where every part of every
done field line is evaluated. -/
def expectedEntryNP (bug : List Bug.Part) (field : List Line) (done : List Line)
    (x : Int) (j : Nat) : List Nat :=
  if isFieldLineB field x && doneB done x then
    (matchesList bug field x j).filter
      (fun c => !(chainAt bug field (x + ((bug.length - 1 - j : Nat) : Int)) c &&
        doneB done (x + ((bug.length - 1 - j : Nat) : Int))))
  else []

/-- The occurrence count accumulated by the processed prefix of the
field: one per (line, column) pair carrying a full occurrence with that
bottom line. -/
def doneCount (bug : List Bug.Part) (field : List Line) (done : List Line) : Nat :=
  (done.map fun L =>
    ((List.range L.pattern.length).filter fun c => chainAt bug field L.id c).length).sum

theorem doneB_iff (done : List Line) (x : Int) :
    doneB done x = true ↔ ∃ L ∈ done, L.id = x := by
  simp [doneB]

theorem doneB_append (done : List Line) (line : Line) (x : Int) :
    doneB (done ++ [line]) x = (doneB done x || (line.id == x)) := by
  simp [doneB]

theorem doneCount_append (bug : List Bug.Part) (field : List Line) (done : List Line)
    (line : Line) :
    doneCount bug field (done ++ [line]) = doneCount bug field done +
      ((List.range line.pattern.length).filter fun c =>
        chainAt bug field line.id c).length := by
  unfold doneCount
  rw [List.map_append, List.sum_append]
  rfl

theorem idealCount_eq_doneCount (bug : List Bug.Part) (field : List Line) :
    idealCount bug field = doneCount bug field field := rfl

theorem done_lt {field done rest : List Line} {line : Line}
    (hfield : field = done ++ line :: rest)
    (hsorted : (field.map Line.id).Pairwise (· < ·)) :
    ∀ L ∈ done, L.id < line.id := by
  intro L hL
  rw [hfield, List.map_append, List.pairwise_append] at hsorted
  exact hsorted.2.2 L.id (List.mem_map_of_mem Line.id hL) line.id (by simp)

theorem rest_gt {field done rest : List Line} {line : Line}
    (hfield : field = done ++ line :: rest)
    (hsorted : (field.map Line.id).Pairwise (· < ·)) :
    ∀ L ∈ rest, line.id < L.id := by
  intro L hL
  rw [hfield, List.map_append, List.pairwise_append, List.map_cons,
    List.pairwise_cons] at hsorted
  exact hsorted.2.1.1 L.id (List.mem_map_of_mem Line.id hL)

theorem field_lt_mem_done {field done rest : List Line} {line : Line}
    (hfield : field = done ++ line :: rest)
    (hsorted : (field.map Line.id).Pairwise (· < ·)) :
    ∀ L ∈ field, L.id < line.id → L ∈ done := by
  intro L hL hlt
  rw [hfield] at hL
  rcases List.mem_append.mp hL with h | h
  · exact h
  · rcases List.mem_cons.mp h with rfl | h'
    · omega
    · exact absurd (rest_gt hfield hsorted L h') (by omega)

theorem doneB_of_isField_lt {field done rest : List Line} {line : Line}
    (hfield : field = done ++ line :: rest)
    (hsorted : (field.map Line.id).Pairwise (· < ·)) {x : Int}
    (hf : isFieldLineB field x = true) (hlt : x < line.id) :
    doneB done x = true := by
  obtain ⟨L, hL, rfl⟩ := isFieldLineB_mem hf
  exact (doneB_iff done L.id).mpr ⟨L, field_lt_mem_done hfield hsorted L hL hlt, rfl⟩

theorem doneB_lt_line {field done rest : List Line} {line : Line}
    (hfield : field = done ++ line :: rest)
    (hsorted : (field.map Line.id).Pairwise (· < ·)) {x : Int}
    (hd : doneB done x = true) : x < line.id := by
  obtain ⟨L, hL, rfl⟩ := (doneB_iff done x).mp hd
  exact done_lt hfield hsorted L hL

theorem doneB_append_gt {field done rest : List Line} {line : Line}
    (hfield : field = done ++ line :: rest)
    (hsorted : (field.map Line.id).Pairwise (· < ·)) {x : Int}
    (hgt : line.id < x) : doneB (done ++ [line]) x = false := by
  rw [doneB_append]
  cases hdb : doneB done x with
  | false =>
    simp only [Bool.false_or, beq_eq_false_iff_ne]
    omega
  | true => exact absurd (doneB_lt_line hfield hsorted hdb) (by omega)

theorem reachedCF_false_mono {bug : List Bug.Part} {field : List Line} {ln : Int}
    {j : Nat} (h : reachedCF bug field ln j = false) :
    ∀ j', j ≤ j' → reachedCF bug field ln j' = false := by
  intro j' hj
  obtain ⟨d, rfl⟩ := Nat.exists_eq_add_of_le hj
  induction d with
  | zero => exact h
  | succ d ih =>
    rw [show j + (d + 1) = (j + d) + 1 by omega, reachedCF_succ, ih (by omega)]
    rfl

theorem getEntry_of_none {t : MatchTable} {x y : Int} (h : t x y = none) :
    getEntry t x y = [] := by
  unfold getEntry
  rw [h]
  rfl

theorem matchesList_eq {bug : List Bug.Part} {field : List Line} {j : Nat}
    {a : Char} {cs : List Constraint} {ln : Int} {t : List Char}
    (hrow : rowPattern bug j = some (a, cs)) (hft : fieldText field ln = some t) :
    matchesList bug field ln j = finditer a cs t := by
  unfold matchesList
  rw [hrow, hft]

theorem ml_filter_chain {bug : List Bug.Part} {field : List Line} {line : Line}
    {a : Char} {cs : List Constraint}
    (hrow : rowPattern bug (bug.length - 1) = some (a, cs))
    (hft : fieldText field line.id = some line.pattern) :
    (matchesList bug field line.id (bug.length - 1)).filter
        (fun c => chainAt bug field line.id c) =
      (List.range line.pattern.length).filter
        (fun c => chainAt bug field line.id c) := by
  rw [matchesList_eq hrow hft, finditer_eq_filter, List.filter_filter]
  apply List.filter_congr
  intro c _
  cases hch : chainAt bug field line.id c with
  | false => rfl
  | true =>
    have hcomp := chainAt_component hch (bug.length - 1)
      (by
        cases hb : bug.length with
        | zero =>
          rw [hb] at hrow
          exact absurd hrow (by
            rw [List.length_eq_zero.mp hb]
            intro hx
            exact Option.noConfusion hx)
        | succ m => omega)
    rw [show line.id - ((bug.length - 1 - (bug.length - 1) : Nat) : Int) = line.id by
      rw [Nat.sub_self]; omega] at hcomp
    unfold rowMatchedAt at hcomp
    rw [hrow, hft] at hcomp
    dsimp only at hcomp
    simp [hcomp]

theorem bool_eq_of_iff {a b : Bool} (h : a = true ↔ b = true) : a = b := by
  cases a <;> cases b <;> simp_all

theorem isEmpty_false_iff {l : List Nat} : l.isEmpty = false ↔ l ≠ [] := by
  cases l <;> simp

theorem last_ge {done : List Line} (hp : (done.map Line.id).Pairwise (· < ·)) :
    ∀ Lm : Line, done.getLast? = some Lm → ∀ L ∈ done, L.id ≤ Lm.id := by
  induction done with
  | nil =>
    intro Lm h
    exact absurd h (by simp)
  | cons d ds ih =>
    intro Lm h L hL
    rw [List.map_cons, List.pairwise_cons] at hp
    cases hds : ds with
    | nil =>
      rw [hds] at h
      have hdLm : d = Lm := by simpa [List.getLast?] using h
      subst hdLm
      rcases List.mem_cons.mp hL with rfl | h'
      · exact le_refl _
      · rw [hds] at h'
        cases h'
    | cons e es =>
      have hlast : ds.getLast? = some Lm := by
        rw [hds] at h ⊢
        simpa [List.getLast?_cons_cons] using h
      rcases List.mem_cons.mp hL with rfl | h'
      · have hLm : Lm ∈ ds := List.mem_of_mem_getLast? hlast
        exact le_of_lt (hp.1 Lm.id (List.mem_map_of_mem Line.id hLm))
      · exact ih hp.2 Lm hlast L h'

/-- The dynamic rule-1 test read off the table equals the closed-form
decision: given that the loop reached the part, it is skipped iff the
closed form says the part is not evaluated. -/
theorem skip_eq_not_processed {bug : List Bug.Part} {field : List Line}
    {done rest : List Line} {line : Line}
    (hfield : field = done ++ line :: rest)
    (hsorted : (field.map Line.id).Pairwise (· < ·))
    (hfl : isFieldLineB field line.id = true)
    {j : Nat} (hjlt : j < bug.length) {bp : Bug.Part} (hid : bp.id = (j : Int))
    {s : BugFinder}
    (hF : ∀ x y : Int, x ≠ line.id → (∀ L ∈ done, L.id < x) →
      s.bug_part_matches x y = none)
    (hK : ∀ Lm : Line, done.getLast? = some Lm → ∀ jj : Nat, jj < bug.length →
      ((s.bug_part_matches Lm.id ↑jj).isSome = true ↔
        (processedCF bug field Lm.id jj = true ∧
          matchesList bug field Lm.id jj ≠ [])))
    (hreach : reachedCF bug field line.id j = true) :
    should_skip_bug_part_in_line s bp line = !(processedCF bug field line.id j) := by
  have hdp : (done.map Line.id).Pairwise (· < ·) := by
    have h := hsorted
    rw [hfield, List.map_append, List.pairwise_append] at h
    exact h.1
  cases j with
  | zero =>
    unfold should_skip_bug_part_in_line
    rw [if_neg]
    · rw [processedCF_zero, hfl]
      rfl
    · rintro ⟨-, habs⟩
      rw [hid] at habs
      omega
  | succ jj =>
    have hform : should_skip_bug_part_in_line s bp line =
        (decide (1 ≤ line.id) &&
          !(processedCF bug field (line.id - 1) jj &&
            !(matchesList bug field (line.id - 1) jj).isEmpty)) := by
      unfold should_skip_bug_part_in_line
      by_cases h1 : (1 : Int) ≤ line.id
      · rw [if_pos ⟨by omega, by rw [hid]; push_cast; omega⟩]
        rw [decide_eq_true h1, Bool.true_and]
        have hcell : bp.id - 1 = ((jj : Nat) : Int) := by
          rw [hid]
          push_cast
          ring
        rw [hcell]
        have hkeyiff : ((s.bug_part_matches (line.id - 1) ↑jj).isSome = true ↔
            (processedCF bug field (line.id - 1) jj = true ∧
              matchesList bug field (line.id - 1) jj ≠ [])) := by
          by_cases hLm : ∃ Lm : Line, done.getLast? = some Lm ∧ Lm.id = line.id - 1
          · obtain ⟨Lm, hg, hLmid⟩ := hLm
            have hkey := hK Lm hg jj (by omega)
            rw [hLmid] at hkey
            exact hkey
          · have hnodone : ∀ L ∈ done, L.id < line.id - 1 := by
              intro L hL
              have hlt := done_lt hfield hsorted L hL
              by_contra hcon
              have hLeq : L.id = line.id - 1 := by omega
              have hne2 : done ≠ [] := by
                intro hd
                rw [hd] at hL
                cases hL
              obtain ⟨Lm, hg⟩ := Option.isSome_iff_exists.mp
                (List.getLast?_isSome.mpr hne2)
              have hLmlt := done_lt hfield hsorted Lm (List.mem_of_mem_getLast? hg)
              have hge := last_ge hdp Lm hg L hL
              exact hLm ⟨Lm, hg, by omega⟩
            have hnone : s.bug_part_matches (line.id - 1) ↑jj = none :=
              hF (line.id - 1) ↑jj (by omega) hnodone
            have hproc : processedCF bug field (line.id - 1) jj = false := by
              cases hp : processedCF bug field (line.id - 1) jj with
              | false => rfl
              | true =>
                have hfl2 := isFieldLineB_of_processedCF hp
                have hdb := doneB_of_isField_lt hfield hsorted hfl2 (by omega)
                obtain ⟨L, hL, hLid⟩ := (doneB_iff done (line.id - 1)).mp hdb
                exact absurd hLid (by have := hnodone L hL; omega)
            rw [hnone, hproc]
            simp
        apply bool_eq_of_iff
        have hiso : (s.bug_part_matches (line.id - 1) ↑jj).isNone = true ↔
            ¬((s.bug_part_matches (line.id - 1) ↑jj).isSome = true) := by
          cases s.bug_part_matches (line.id - 1) ↑jj <;> simp
        rw [hiso, hkeyiff]
        cases hp : processedCF bug field (line.id - 1) jj <;>
          cases he : (matchesList bug field (line.id - 1) jj).isEmpty <;>
            simp_all [List.isEmpty_iff, isEmpty_false_iff]
      · rw [if_neg (by rintro ⟨h, -⟩; omega), decide_eq_false h1, Bool.false_and]
    rw [hform, processedCF_succ, hreach, Bool.true_and, Bool.not_not]

/-- The dynamic rule-2 test after processing a part equals the
closed-form break decision. -/
theorem break_eq_brk {bug : List Bug.Part} {field : List Line} {line : Line}
    {j : Nat} {bp : Bug.Part} (hid : bp.id = (j : Int)) {s2 : BugFinder}
    (hkey : ((s2.bug_part_matches line.id ↑j).isSome = true ↔
      matchesList bug field line.id j ≠ [])) :
    should_skip_all_bug_parts_in_line s2 bp line =
      (decide (line.id - (j : Int) ≤ 0) &&
        (matchesList bug field line.id j).isEmpty) := by
  unfold should_skip_all_bug_parts_in_line bug_part_match_exists
  rw [hid]
  by_cases hc : line.id - (j : Int) ≤ 0
  · rw [if_pos hc, decide_eq_true hc, Bool.true_and]
    apply bool_eq_of_iff
    rw [Bool.not_eq_true', ← Bool.not_eq_true ((s2.bug_part_matches line.id ↑j).isSome)]
    rw [not_iff_comm, Bool.not_eq_true, isEmpty_false_iff]
    exact hkey.symm
  · rw [if_neg hc, decide_eq_false hc, Bool.false_and]

theorem drop_facts {bug : List Bug.Part} {j : Nat} {bp : Bug.Part}
    {tail : List Bug.Part} (h : bug.drop j = bp :: tail) :
    j < bug.length ∧ bug.get? j = some bp ∧ bug.drop (j + 1) = tail := by
  have hjlt : j < bug.length := by
    by_contra hc
    rw [List.drop_eq_nil_of_le (by omega)] at h
    exact List.noConfusion h
  refine ⟨hjlt, ?_, ?_⟩
  · rw [List.get?_eq_getElem?, ← List.head?_drop, h]
    rfl
  · rw [← List.tail_drop, h]
    rfl

theorem doneB_self (done : List Line) (line : Line) :
    doneB (done ++ [line]) line.id = true := by
  rw [doneB_append]
  simp

theorem doneB_done_line_false {field done rest : List Line} {line : Line}
    (hfield : field = done ++ line :: rest)
    (hsorted : (field.map Line.id).Pairwise (· < ·)) :
    doneB done line.id = false := by
  cases h : doneB done line.id with
  | false => rfl
  | true => exact absurd (doneB_lt_line hfield hsorted h) (by omega)

theorem doneB_append_ne {done : List Line} {line : Line} {x : Int}
    (hx : x ≠ line.id) : doneB (done ++ [line]) x = doneB done x := by
  rw [doneB_append, beq_eq_false_iff_ne.mpr (Ne.symm hx), Bool.or_false]

theorem expectedEntry_eq_nil_of_not_processed {bug : List Bug.Part}
    {field : List Line} {done : List Line} {x : Int} {j : Nat}
    (h : processedCF bug field x j = false) :
    expectedEntry bug field done x j = [] := by
  unfold expectedEntry
  rw [h, Bool.false_and, if_neg Bool.false_ne_true]

/-- Appending a freshly finished line whose columns carry no occurrence
changes no expected entry off that line. -/
theorem expectedEntry_append_frame {bug : List Bug.Part} {field : List Line}
    {done rest : List Line} {line : Line}
    (hfield : field = done ++ line :: rest)
    (hsorted : (field.map Line.id).Pairwise (· < ·))
    (x : Int) (j : Nat) (hx : x ≠ line.id)
    (hchain : x + ((bug.length - 1 - j : Nat) : Int) = line.id →
      ∀ c, chainAt bug field line.id c = false) :
    expectedEntry bug field (done ++ [line]) x j = expectedEntry bug field done x j := by
  unfold expectedEntry
  rw [doneB_append_ne hx]
  by_cases hg : (processedCF bug field x j && doneB done x) = true
  · rw [hg, if_pos rfl, if_pos rfl]
    apply List.filter_congr
    intro c _
    by_cases hb : x + ((bug.length - 1 - j : Nat) : Int) = line.id
    · rw [hb, hchain hb c]
      rfl
    · rw [doneB_append_ne hb]
  · rw [Bool.not_eq_true] at hg
    rw [hg, if_neg Bool.false_ne_true, if_neg Bool.false_ne_true]

theorem expectedEntry_cur_nonlast {bug : List Bug.Part} {field : List Line}
    {done rest : List Line} {line : Line}
    (hfield : field = done ++ line :: rest)
    (hsorted : (field.map Line.id).Pairwise (· < ·))
    {j : Nat} (hjlt : j + 1 < bug.length)
    (hproc : processedCF bug field line.id j = true) :
    expectedEntry bug field (done ++ [line]) line.id j =
      matchesList bug field line.id j := by
  unfold expectedEntry
  rw [hproc, doneB_self, Bool.and_self, if_pos rfl]
  apply List.filter_eq_self.mpr
  intro c _
  have hgt : line.id < line.id + ((bug.length - 1 - j : Nat) : Int) := by
    have : 1 ≤ bug.length - 1 - j := by omega
    omega
  rw [doneB_append_gt hfield hsorted hgt, Bool.and_false]
  rfl

theorem expectedEntry_cur_bottom {bug : List Bug.Part} {field : List Line}
    {done rest : List Line} {line : Line}
    (hfield : field = done ++ line :: rest)
    (hsorted : (field.map Line.id).Pairwise (· < ·))
    (hproc : processedCF bug field line.id (bug.length - 1) = true) :
    expectedEntry bug field (done ++ [line]) line.id (bug.length - 1) =
      (matchesList bug field line.id (bug.length - 1)).filter
        (fun c => !(chainAt bug field line.id c)) := by
  unfold expectedEntry
  rw [hproc, doneB_self, Bool.and_self, if_pos rfl]
  rw [Nat.sub_self, show line.id + ((0 : Nat) : Int) = line.id by omega]
  apply List.filter_congr
  intro c _
  rw [doneB_self, Bool.and_true]

theorem expectedEntry_append_diag {bug : List Bug.Part} {field : List Line}
    {done rest : List Line} {line : Line}
    (hfield : field = done ++ line :: rest)
    (hsorted : (field.map Line.id).Pairwise (· < ·))
    {k : Nat} (hk1 : 1 ≤ k) (hk2 : k < bug.length)
    (hmlchain : ∀ c, chainAt bug field line.id c = true →
      c ∈ matchesList bug field line.id (bug.length - 1)) :
    expectedEntry bug field (done ++ [line]) (line.id - (k : Int))
        (bug.length - 1 - k) =
      (expectedEntry bug field done (line.id - (k : Int)) (bug.length - 1 - k)).filter
        (fun c => !(decide (c ∈ matchesList bug field line.id (bug.length - 1)) &&
          chainAt bug field line.id c)) := by
  have hxne : line.id - (k : Int) ≠ line.id := by omega
  have hbot : line.id - (k : Int) +
      ((bug.length - 1 - (bug.length - 1 - k) : Nat) : Int) = line.id := by
    rw [show bug.length - 1 - (bug.length - 1 - k) = k by omega]
    omega
  unfold expectedEntry
  rw [doneB_append_ne hxne, hbot]
  by_cases hg : (processedCF bug field (line.id - (k : Int)) (bug.length - 1 - k) &&
      doneB done (line.id - (k : Int))) = true
  · rw [hg, if_pos rfl, if_pos rfl]
    rw [doneB_self, doneB_done_line_false hfield hsorted]
    have hinner : List.filter (fun c => !(chainAt bug field line.id c && false))
        (matchesList bug field (line.id - (k : Int)) (bug.length - 1 - k)) =
        matchesList bug field (line.id - (k : Int)) (bug.length - 1 - k) :=
      List.filter_eq_self.mpr (fun a _ => by rw [Bool.and_false]; rfl)
    rw [hinner]
    apply List.filter_congr
    intro c _
    rw [Bool.and_true]
    cases hch : chainAt bug field line.id c with
    | false => rw [Bool.and_false]
    | true => rw [Bool.and_true, decide_eq_true (hmlchain c hch)]
  · rw [Bool.not_eq_true] at hg
    rw [hg, if_neg Bool.false_ne_true, if_neg Bool.false_ne_true]
    rfl

theorem expectedEntry_mem_diag {bug : List Bug.Part} {field : List Line}
    {done rest : List Line} {line : Line}
    (hfield : field = done ++ line :: rest)
    (hsorted : (field.map Line.id).Pairwise (· < ·))
    {k : Nat} (hk1 : 1 ≤ k) (hk2 : k < bug.length) (c : Nat) :
    c ∈ expectedEntry bug field done (line.id - (k : Int)) (bug.length - 1 - k) ↔
      (processedCF bug field (line.id - (k : Int)) (bug.length - 1 - k) = true ∧
        c ∈ matchesList bug field (line.id - (k : Int)) (bug.length - 1 - k)) := by
  have hbot : line.id - (k : Int) +
      ((bug.length - 1 - (bug.length - 1 - k) : Nat) : Int) = line.id := by
    rw [show bug.length - 1 - (bug.length - 1 - k) = k by omega]
    omega
  unfold expectedEntry
  rw [hbot, doneB_done_line_false hfield hsorted]
  by_cases hp : processedCF bug field (line.id - (k : Int)) (bug.length - 1 - k) = true
  · have hdb : doneB done (line.id - (k : Int)) = true :=
      doneB_of_isField_lt hfield hsorted (isFieldLineB_of_processedCF hp) (by omega)
    rw [hp, hdb, Bool.and_self, if_pos rfl]
    rw [List.filter_eq_self.mpr (fun a _ => by rw [Bool.and_false]; rfl)]
    simp [hp]
  · rw [Bool.not_eq_true] at hp
    rw [hp, Bool.false_and, if_neg Bool.false_ne_true]
    simp [hp]

theorem probes_iff_chainAt {bug : List Bug.Part} {field : List Line} {line : Line}
    (h0 : ∀ L ∈ field, 0 ≤ L.id) (hne : bug ≠ []) (c : Nat)
    (hcml : c ∈ matchesList bug field line.id (bug.length - 1)) :
    (∀ k : Nat, 1 ≤ k → k < bug.length →
      (processedCF bug field (line.id - (k : Int)) (bug.length - 1 - k) = true ∧
        c ∈ matchesList bug field (line.id - (k : Int)) (bug.length - 1 - k))) ↔
      chainAt bug field line.id c = true := by
  constructor
  · intro h
    apply chainAt_intro
    intro jj hjj
    by_cases hlast : jj = bug.length - 1
    · subst hlast
      rw [Nat.sub_self, show line.id - ((0 : Nat) : Int) = line.id by omega]
      exact (mem_matchesList bug field line.id (bug.length - 1) c).mp hcml
    · have hk1 : 1 ≤ bug.length - 1 - jj := by omega
      have hk2 : bug.length - 1 - jj < bug.length := by omega
      obtain ⟨-, hmem⟩ := h (bug.length - 1 - jj) hk1 hk2
      rw [show bug.length - 1 - (bug.length - 1 - jj) = jj by omega] at hmem
      exact (mem_matchesList bug field _ jj c).mp hmem
  · intro hch k hk1 hk2
    constructor
    · apply processedCF_of_chainAt h0 (bug.length - 1 - k) (line.id - (k : Int)) c
        (by omega)
      rw [show bug.length - 1 - (bug.length - 1 - k) = k by omega]
      rw [show line.id - (k : Int) + ((k : Nat) : Int) = line.id by omega]
      exact hch
    · have := chainAt_component hch (bug.length - 1 - k) (by omega)
      rw [show bug.length - 1 - (bug.length - 1 - k) = k by omega] at this
      exact (mem_matchesList bug field _ _ c).mpr this

theorem option_eq_none_of_not_isSome {α : Type} {o : Option α}
    (h : ¬ o.isSome = true) : o = none := by
  cases o with
  | none => rfl
  | some v => exact absurd rfl h

theorem expectedEntry_nodup (bug : List Bug.Part) (field : List Line)
    (done : List Line) (x : Int) (j : Nat) :
    (expectedEntry bug field done x j).Nodup := by
  unfold expectedEntry
  split
  · exact List.Nodup.filter _ (matchesList_nodup bug field x j)
  · exact List.nodup_nil

/-- The part loop of the pruned engine on one field line, from any part
the loop reaches, preserves the table abstraction and accumulates
exactly the occurrences whose bottom row lies on that line. -/
theorem processParts_pruned_inv {bug : List Bug.Part} {field : List Line}
    (hn : bug.map Bug.Part.id = (List.range bug.length).map Int.ofNat)
    (hne : bug ≠ [])
    (hpat : ∀ j : Nat, j < bug.length → (rowPattern bug j).isSome = true)
    (hsorted : (field.map Line.id).Pairwise (· < ·))
    (h0 : ∀ L ∈ field, 0 ≤ L.id)
    {done rest : List Line} {line : Line}
    (hfield : field = done ++ line :: rest) :
    ∀ (suffix : List Bug.Part) (j : Nat), bug.drop j = suffix → j < bug.length →
    ∀ s : BugFinder, s.bug = bug →
      s.bug_count = doneCount bug field done →
      reachedCF bug field line.id j = true →
      (∀ (x : Int) (jj : Nat), jj < bug.length → x ≠ line.id →
        getEntry s.bug_part_matches x ↑jj = expectedEntry bug field done x jj) →
      (∀ x y : Int, x ≠ line.id → (∀ L ∈ done, L.id < x) →
        s.bug_part_matches x y = none) →
      (∀ Lm : Line, done.getLast? = some Lm → ∀ jj : Nat, jj < bug.length →
        ((s.bug_part_matches Lm.id ↑jj).isSome = true ↔
          (processedCF bug field Lm.id jj = true ∧
            matchesList bug field Lm.id jj ≠ []))) →
      (∀ jj : Nat, jj < j → getEntry s.bug_part_matches line.id ↑jj =
        expectedEntry bug field (done ++ [line]) line.id jj) →
      (∀ jj : Nat, jj < j → ((s.bug_part_matches line.id ↑jj).isSome = true ↔
        (processedCF bug field line.id jj = true ∧
          matchesList bug field line.id jj ≠ []))) →
      (∀ y : Int, (j : Int) ≤ y → s.bug_part_matches line.id y = none) →
      ∃ s', processParts line suffix s = .ok s' ∧
        s'.bug = bug ∧
        s'.bug_count = doneCount bug field (done ++ [line]) ∧
        (∀ (x : Int) (jj : Nat), jj < bug.length →
          getEntry s'.bug_part_matches x ↑jj =
            expectedEntry bug field (done ++ [line]) x jj) ∧
        (∀ x y : Int, (∀ L ∈ done ++ [line], L.id < x) →
          s'.bug_part_matches x y = none) ∧
        (∀ jj : Nat, jj < bug.length →
          ((s'.bug_part_matches line.id ↑jj).isSome = true ↔
            (processedCF bug field line.id jj = true ∧
              matchesList bug field line.id jj ≠ []))) := by
  intro suffix
  induction suffix with
  | nil =>
    intro j hdrop hjlt
    rw [List.drop_eq_nil_iff_le] at hdrop
    omega
  | cons bp tail ih =>
    intro j hdrop hjlt s hsbug hcount hreach hEold hF hK hLent hLkey hLnone
    obtain ⟨-, hget, hdroptail⟩ := drop_facts hdrop
    have hid : bp.id = (j : Int) := get?_id_of_contig hn hget
    have hlinemem : line ∈ field := by
      rw [hfield]
      exact List.mem_append_right _ (List.mem_cons_self _ _)
    have hft : fieldText field line.id = some line.pattern :=
      fieldText_of_mem hsorted hlinemem
    have hfl : isFieldLineB field line.id = true := by
      unfold isFieldLineB
      rw [hft]
      rfl
    have hskip := skip_eq_not_processed hfield hsorted hfl hjlt hid hF hK hreach
    have hrowp : rowPattern bug j = bp.pattern := by
      unfold rowPattern
      rw [hget]
      rfl
    have hpj := hpat j hjlt
    rw [hrowp] at hpj
    obtain ⟨⟨a, cs⟩, hpatj⟩ := Option.isSome_iff_exists.mp hpj
    have hmleq : matchesList bug field line.id j = finditer a cs line.pattern :=
      matchesList_eq (by rw [hrowp]; exact hpatj) hft
    have hchainml : ∀ c, chainAt bug field line.id c = true →
        c ∈ matchesList bug field line.id (bug.length - 1) := by
      intro c hch
      apply (mem_matchesList bug field line.id (bug.length - 1) c).mpr
      have := chainAt_component hch (bug.length - 1) (by omega)
      rwa [Nat.sub_self, show line.id - ((0 : Nat) : Int) = line.id by omega] at this
    rw [processParts]
    cases hproc : processedCF bug field line.id j with
    | false =>
      rw [hskip, if_pos (by rw [hproc]; rfl)]
      by_cases hlast : j + 1 < bug.length
      · -- skipped non-bottom part: recurse
        apply ih (j + 1) hdroptail hlast s hsbug hcount
        · rw [reachedCF_succ, hreach, hproc]
          rfl
        · exact hEold
        · exact hF
        · exact hK
        · intro jj hjj
          rcases Nat.lt_succ_iff_lt_or_eq.mp hjj with h | rfl
          · exact hLent jj h
          · rw [getEntry_of_none (hLnone ↑jj (le_refl _)),
              expectedEntry_eq_nil_of_not_processed hproc]
        · intro jj hjj
          rcases Nat.lt_succ_iff_lt_or_eq.mp hjj with h | rfl
          · exact hLkey jj h
          · rw [hLnone ↑jj (le_refl _)]
            simp [hproc]
        · intro y hy
          exact hLnone y (by push_cast at hy ⊢; omega)
      · -- skipped bottom part: the loop ends with nothing new
        have hjn : j = bug.length - 1 := by omega
        subst hjn
        have htail : tail = [] := by
          rw [← hdroptail]
          exact List.drop_eq_nil_of_le (by omega)
        subst htail
        rw [processParts]
        have hchainfalse : ∀ c, chainAt bug field line.id c = false := by
          intro c
          have := chainAt_false_of_not_processed h0 (by omega : bug.length - 1 < bug.length)
            hproc c
          rwa [Nat.sub_self, show line.id + ((0 : Nat) : Int) = line.id by omega] at this
        have hnochain : ((List.range line.pattern.length).filter fun c =>
            chainAt bug field line.id c) = [] :=
          List.filter_eq_nil.mpr fun c _ => by rw [hchainfalse c]; exact Bool.false_ne_true
        refine ⟨s, rfl, hsbug, ?_, ?_, ?_, ?_⟩
        · rw [hcount, doneCount_append, hnochain]
          rfl
        · intro x jj hjj
          by_cases hx : x = line.id
          · subst hx
            by_cases hjb : jj < bug.length - 1
            · exact hLent jj hjb
            · have hje : jj = bug.length - 1 := by omega
              rw [getEntry_of_none (hLnone ↑jj (by omega)),
                expectedEntry_eq_nil_of_not_processed (by rw [hje]; exact hproc)]
          · rw [expectedEntry_append_frame hfield hsorted x jj hx
              (fun _ => hchainfalse)]
            exact hEold x jj hjj hx
        · intro x y hall
          have hgt : line.id < x := hall line (List.mem_append_right _ (by simp))
          exact hF x y (by omega) (fun L hL => hall L (List.mem_append_left _ hL))
        · intro jj hjj
          by_cases hjb : jj < bug.length - 1
          · exact hLkey jj hjb
          · have hje : jj = bug.length - 1 := by omega
            rw [hLnone ↑jj (by omega), hje]
            simp [hproc]
    | true =>
      rw [hskip, if_neg (by rw [hproc]; exact Bool.false_ne_true)]
      have hfind : find_bug_part_and_bugs_in_landscape_line s bp line =
          processMatches bp line (matchesList bug field line.id j) s := by
        unfold find_bug_part_and_bugs_in_landscape_line
        rw [hpatj]
        dsimp only
        rw [hmleq]
      rw [hfind]
      by_cases hlast : j + 1 < bug.length
      · -- evaluated non-bottom part
        have hbpne : bp.id ≠ ((bug.length - 1 : Nat) : Int) := by
          rw [hid]
          intro hcon
          have : j = bug.length - 1 := by exact_mod_cast hcon
          omega
        obtain ⟨s2, hrun2, hbug2, hcount2, hent2, hkey2⟩ :=
          processMatches_nonlast hn bp line hbpne (matchesList bug field line.id j) s hsbug
        rw [hrun2]
        dsimp only
        have hold0 : s.bug_part_matches line.id ((j : Nat) : Int) = none :=
          hLnone ↑j (le_refl _)
        have hkeycur : ((s2.bug_part_matches line.id ↑j).isSome = true ↔
            matchesList bug field line.id j ≠ []) := by
          constructor
          · intro h
            rcases (hkey2 line.id ↑j).mp h with ho | ⟨-, -, hml⟩
            · rw [hold0] at ho
              exact absurd ho (by simp)
            · exact hml
          · intro hml
            exact (hkey2 line.id ↑j).mpr (Or.inr ⟨rfl, hid.symm, hml⟩)
        have hbreak := @break_eq_brk bug field line j bp hid s2 hkeycur
        cases hbrk : (decide (line.id - (j : Int) ≤ 0) &&
            (matchesList bug field line.id j).isEmpty) with
        | true =>
          -- rule 2 fires: remaining parts unreachable, nothing counted here
          rw [if_pos (by rw [hbreak]; exact hbrk)]
          obtain ⟨hble, hbemp⟩ := Bool.and_eq_true_iff.mp hbrk
          have hmlnil : matchesList bug field line.id j = [] := List.isEmpty_iff.mp hbemp
          have hreachfail : reachedCF bug field line.id (j + 1) = false := by
            rw [reachedCF_succ, hreach, hproc, hble, hbemp]
            rfl
          have hprocfail : ∀ jj, j + 1 ≤ jj →
              processedCF bug field line.id jj = false := by
            intro jj hjj
            cases hp : processedCF bug field line.id jj with
            | false => rfl
            | true =>
              have := reachedCF_of_processedCF hp
              rw [reachedCF_false_mono hreachfail jj hjj] at this
              exact Bool.noConfusion this
          have hchainfalse : ∀ c, chainAt bug field line.id c = false := by
            intro c
            have hnp : processedCF bug field line.id (bug.length - 1) = false :=
              hprocfail (bug.length - 1) (by omega)
            have := chainAt_false_of_not_processed h0
              (by omega : bug.length - 1 < bug.length) hnp c
            rwa [Nat.sub_self, show line.id + ((0 : Nat) : Int) = line.id by omega] at this
          have hnochain : ((List.range line.pattern.length).filter fun c =>
              chainAt bug field line.id c) = [] :=
            List.filter_eq_nil.mpr fun c _ => by rw [hchainfalse c]; exact Bool.false_ne_true
          refine ⟨s2, rfl, hbug2, ?_, ?_, ?_, ?_⟩
          · rw [hcount2, hcount, doneCount_append, hnochain]
            rfl
          · intro x jj hjj
            by_cases hx : x = line.id
            · subst hx
              by_cases hjq : jj = j
              · subst hjq
                rw [hent2 line.id ↑jj, if_pos ⟨rfl, hid.symm⟩, hmlnil,
                  getEntry_of_none hold0, List.append_nil]
                rw [expectedEntry_cur_nonlast hfield hsorted hlast hproc, hmlnil]
              · have hcne : ((jj : Nat) : Int) ≠ bp.id := by
                  rw [hid]
                  intro hcon
                  exact hjq (by exact_mod_cast hcon)
                rw [hent2 line.id ↑jj, if_neg (by rintro ⟨-, h⟩; exact hcne h)]
                by_cases hjb : jj < j
                · exact hLent jj hjb
                · rw [getEntry_of_none (hLnone ↑jj (by push_cast; omega)),
                    expectedEntry_eq_nil_of_not_processed (hprocfail jj (by omega))]
            · rw [hent2 x ↑jj, if_neg (by rintro ⟨h, -⟩; exact hx h)]
              rw [expectedEntry_append_frame hfield hsorted x jj hx
                (fun _ => hchainfalse)]
              exact hEold x jj hjj hx
          · intro x y hall
            have hgt : line.id < x := hall line (List.mem_append_right _ (by simp))
            apply option_eq_none_of_not_isSome
            intro h
            rcases (hkey2 x y).mp h with ho | ⟨hxx, -, -⟩
            · rw [hF x y (by omega) (fun L hL => hall L (List.mem_append_left _ hL))] at ho
              exact absurd ho (by simp)
            · omega
          · intro jj hjj
            constructor
            · intro h
              rcases (hkey2 line.id ↑jj).mp h with ho | ⟨-, hy, hml⟩
              · by_cases hjb : jj < j
                · exact (hLkey jj hjb).mp ho
                · rw [hLnone ↑jj (by push_cast; omega)] at ho
                  exact absurd ho (by simp)
              · rw [hid] at hy
                have : jj = j := by exact_mod_cast hy
                subst this
                exact absurd hmlnil hml
            · rintro ⟨hp, hml⟩
              by_cases hjb : jj < j
              · exact (hkey2 line.id ↑jj).mpr (Or.inl ((hLkey jj hjb).mpr ⟨hp, hml⟩))
              · by_cases hjq : jj = j
                · subst hjq
                  exact absurd hmlnil hml
                · rw [hprocfail jj (by omega)] at hp
                  exact Bool.noConfusion hp
        | false =>
          -- no break: recurse
          rw [if_neg (by rw [hbreak, hbrk]; exact Bool.false_ne_true)]
          have hreach1 : reachedCF bug field line.id (j + 1) = true := by
            rw [reachedCF_succ, hreach, hproc]
            simp only [Bool.true_and]
            rw [hbrk]
            rfl
          apply ih (j + 1) hdroptail hlast s2 hbug2 (by rw [hcount2, hcount]) hreach1
          · intro x jj hjj hx
            rw [hent2 x ↑jj, if_neg (by rintro ⟨h, -⟩; exact hx h)]
            exact hEold x jj hjj hx
          · intro x y hx hdones
            apply option_eq_none_of_not_isSome
            intro h
            rcases (hkey2 x y).mp h with ho | ⟨hxx, -, -⟩
            · rw [hF x y hx hdones] at ho
              exact absurd ho (by simp)
            · exact hx hxx
          · intro Lm hLm jj hjj
            have hlt : Lm.id < line.id :=
              done_lt hfield hsorted Lm (List.mem_of_mem_getLast? hLm)
            constructor
            · intro h
              rcases (hkey2 Lm.id ↑jj).mp h with ho | ⟨hxx, -, -⟩
              · exact (hK Lm hLm jj hjj).mp ho
              · omega
            · intro hp
              exact (hkey2 Lm.id ↑jj).mpr (Or.inl ((hK Lm hLm jj hjj).mpr hp))
          · intro jj hjj
            rcases Nat.lt_succ_iff_lt_or_eq.mp hjj with h | rfl
            · have hcne : ((jj : Nat) : Int) ≠ bp.id := by
                rw [hid]
                intro hcon
                omega
              rw [hent2 line.id ↑jj, if_neg (by rintro ⟨-, hcc⟩; exact hcne hcc)]
              exact hLent jj h
            · rw [hent2 line.id ↑jj, if_pos ⟨rfl, hid.symm⟩, getEntry_of_none hold0,
                List.nil_append]
              exact (expectedEntry_cur_nonlast hfield hsorted hlast hproc).symm
          · intro jj hjj
            rcases Nat.lt_succ_iff_lt_or_eq.mp hjj with h | rfl
            · have hcne : ((jj : Nat) : Int) ≠ bp.id := by
                rw [hid]
                intro hcon
                omega
              constructor
              · intro hh
                rcases (hkey2 line.id ↑jj).mp hh with ho | ⟨-, hcc, -⟩
                · exact (hLkey jj h).mp ho
                · exact absurd hcc hcne
              · intro hp
                exact (hkey2 line.id ↑jj).mpr (Or.inl ((hLkey jj h).mpr hp))
            · constructor
              · intro hh
                rcases (hkey2 line.id ↑jj).mp hh with ho | ⟨-, -, hml⟩
                · rw [hold0] at ho
                  exact absurd ho (by simp)
                · exact ⟨hproc, hml⟩
              · rintro ⟨-, hml⟩
                exact (hkey2 line.id ↑jj).mpr (Or.inr ⟨rfl, hid.symm, hml⟩)
          · intro y hy
            apply option_eq_none_of_not_isSome
            intro h
            rcases (hkey2 line.id y).mp h with ho | ⟨-, hyy, -⟩
            · rw [hLnone y (by push_cast at hy ⊢; omega)] at ho
              exact absurd ho (by simp)
            · rw [hid] at hyy
              push_cast at hy
              omega
      · -- evaluated bottom part
        have hjn : j = bug.length - 1 := by omega
        subst hjn
        have htail : tail = [] := by
          rw [← hdroptail]
          exact List.drop_eq_nil_of_le (by omega)
        subst htail
        have hidb : bp.id = ((bug.length - 1 : Nat) : Int) := hid
        obtain ⟨s', hrun', hbug', hcount', hbot', hupper', hframe', hfuture', hkeys'⟩ :=
          processMatches_bottom hn hne bp line hidb
            (fun c => chainAt bug field line.id c)
            (matchesList bug field line.id (bug.length - 1)) s hsbug
            (matchesList_nodup bug field line.id (bug.length - 1))
            (by
              intro c hc
              rw [hidb, getEntry_of_none (hLnone ↑(bug.length - 1) (le_refl _))]
              exact List.not_mem_nil c)
            (by
              intro c hc
              rw [← probes_iff_chainAt h0 hne c hc]
              constructor
              · intro h k h1 h2
                have := h k h1 h2
                rw [hEold (line.id - (k : Int)) (bug.length - 1 - k) (by omega)
                  (by omega)] at this
                exact (expectedEntry_mem_diag hfield hsorted h1 h2 c).mp this
              · intro h k h1 h2
                rw [hEold (line.id - (k : Int)) (bug.length - 1 - k) (by omega)
                  (by omega)]
                exact (expectedEntry_mem_diag hfield hsorted h1 h2 c).mpr (h k h1 h2)
            )
            (by
              intro c hc k h1 h2
              rw [hEold (line.id - (k : Int)) (bug.length - 1 - k) (by omega) (by omega)]
              exact List.nodup_iff_count_le_one.mp
                (expectedEntry_nodup bug field done _ _) c)
        rw [hrun']
        dsimp only
        have hok : (if should_skip_all_bug_parts_in_line s' bp line = true then
            (Except.ok s' : Except EngineError BugFinder)
          else processParts line [] s') = .ok s' := by
          split
          · rfl
          · rfl
        rw [hok]
        have hmlchain : (matchesList bug field line.id (bug.length - 1)).filter
            (fun c => chainAt bug field line.id c) =
            (List.range line.pattern.length).filter
              (fun c => chainAt bug field line.id c) :=
          ml_filter_chain (by rw [hrowp]; exact hpatj) hft
        refine ⟨s', rfl, hbug', ?_, ?_, ?_, ?_⟩
        · rw [hcount', hcount, doneCount_append]
          congr 1
          rw [← hmlchain]
        · intro x jj hjj
          by_cases hx : x = line.id
          · subst hx
            by_cases hjb : jj = bug.length - 1
            · subst hjb
              rw [show ((bug.length - 1 : Nat) : Int) = bp.id from hidb.symm, hbot',
                getEntry_of_none (hLnone bp.id (by rw [hidb])), List.nil_append]
              rw [expectedEntry_cur_bottom hfield hsorted hproc]
            · rw [hframe' line.id ↑jj
                (by rintro ⟨-, hcc⟩; rw [hidb] at hcc; exact hjb (by exact_mod_cast hcc))
                (by rintro k h1 h2 ⟨hcc, -⟩; omega)]
              exact hLent jj (by omega)
          · by_cases hdiag : x = line.id - ((bug.length - 1 - jj : Nat) : Int) ∧
                jj < bug.length - 1
            · obtain ⟨hxeq, hjb⟩ := hdiag
              have hk1 : 1 ≤ bug.length - 1 - jj := by omega
              have hk2 : bug.length - 1 - jj < bug.length := by omega
              have hjeq : bug.length - 1 - (bug.length - 1 - jj) = jj := by omega
              have hup := hupper' (bug.length - 1 - jj) hk1 hk2
              rw [hjeq] at hup
              rw [hxeq, hup, hEold (line.id - ((bug.length - 1 - jj : Nat) : Int)) jj hjj
                (by omega)]
              have hdg := expectedEntry_append_diag hfield hsorted hk1 hk2 hchainml
              rw [hjeq] at hdg
              rw [hdg]
            · rw [hframe' x ↑jj (by rintro ⟨hxx, -⟩; exact hx hxx)
                (by
                  rintro k h1 h2 ⟨hxx, hcc⟩
                  have hjx : jj = bug.length - 1 - k := by exact_mod_cast hcc
                  apply hdiag
                  constructor
                  · rw [hxx, hjx, show bug.length - 1 - (bug.length - 1 - k) = k by omega]
                  · omega)]
              rw [hEold x jj hjj hx]
              rw [expectedEntry_append_frame hfield hsorted x jj hx]
              intro hb
              exfalso
              apply hdiag
              have hjb : jj < bug.length - 1 := by
                by_contra hc
                have : jj = bug.length - 1 := by omega
                rw [this, Nat.sub_self] at hb
                apply hx
                omega
              exact ⟨by omega, hjb⟩
        · intro x y hall
          have hgt : line.id < x := hall line (List.mem_append_right _ (by simp))
          rw [hfuture' x y hgt]
          exact hF x y (by omega) (fun L hL => hall L (List.mem_append_left _ hL))
        · intro jj hjj
          rw [hkeys' ↑jj]
          by_cases hjb : jj = bug.length - 1
          · rw [hLnone ↑jj (by omega)]
            constructor
            · rintro (ho | ⟨-, hml⟩)
              · exact absurd ho (by simp)
              · rw [hjb]
                exact ⟨hproc, hml⟩
            · rintro ⟨-, hml⟩
              exact Or.inr ⟨by rw [hidb, hjb], by rw [← hjb]; exact hml⟩
          · constructor
            · rintro (ho | ⟨hcc, -⟩)
              · exact (hLkey jj (by omega)).mp ho
              · rw [hidb] at hcc
                exact absurd (by exact_mod_cast hcc : jj = bug.length - 1) hjb
            · intro hp
              exact Or.inl ((hLkey jj (by omega)).mpr hp)

/-- The line loop of the pruned engine: starting from any table state
described by the processed prefix, finishing the remaining lines yields
exactly the ideal count and the fully filtered table. -/
theorem processLines_pruned_inv {bug : List Bug.Part} {field : List Line}
    (hn : bug.map Bug.Part.id = (List.range bug.length).map Int.ofNat)
    (hne : bug ≠ [])
    (hpat : ∀ j : Nat, j < bug.length → (rowPattern bug j).isSome = true)
    (hsorted : (field.map Line.id).Pairwise (· < ·))
    (h0 : ∀ L ∈ field, 0 ≤ L.id) :
    ∀ (todo done : List Line), field = done ++ todo →
    ∀ s : BugFinder, s.bug = bug →
      s.bug_count = doneCount bug field done →
      (∀ (x : Int) (jj : Nat), jj < bug.length →
        getEntry s.bug_part_matches x ↑jj = expectedEntry bug field done x jj) →
      (∀ x y : Int, (∀ L ∈ done, L.id < x) → s.bug_part_matches x y = none) →
      (∀ Lm : Line, done.getLast? = some Lm → ∀ jj : Nat, jj < bug.length →
        ((s.bug_part_matches Lm.id ↑jj).isSome = true ↔
          (processedCF bug field Lm.id jj = true ∧
            matchesList bug field Lm.id jj ≠ []))) →
      ∃ s', processLines todo s = .ok s' ∧ s'.bug = bug ∧
        s'.bug_count = doneCount bug field field ∧
        (∀ (x : Int) (jj : Nat), jj < bug.length →
          getEntry s'.bug_part_matches x ↑jj =
            expectedEntry bug field field x jj) := by
  intro todo
  induction todo with
  | nil =>
    intro done hfield s hsbug hcount hE hF hK
    rw [List.append_nil] at hfield
    subst hfield
    exact ⟨s, rfl, hsbug, hcount, hE⟩
  | cons line rest' ih =>
    intro done hfield s hsbug hcount hE hF hK
    rw [processLines, hsbug]
    obtain ⟨s'', hrun'', hbug'', hcount'', hE'', hF'', hK''⟩ :=
      processParts_pruned_inv hn hne hpat hsorted h0 hfield bug 0 (List.drop_zero bug)
        (by cases hb : bug.length with
          | zero => exact absurd (List.length_eq_zero.mp hb) hne
          | succ m => omega)
        s hsbug hcount
        (by
          unfold reachedCF lineStatus
          unfold isFieldLineB
          rw [fieldText_of_mem hsorted (by
            rw [hfield]
            exact List.mem_append_right _ (List.mem_cons_self _ _))]
          rfl)
        (fun x jj hjj _ => hE x jj hjj) (fun x y _ hd => hF x y hd) hK
        (fun jj hjj => absurd hjj (Nat.not_lt_zero jj))
        (fun jj hjj => absurd hjj (Nat.not_lt_zero jj))
        (fun y _ => hF line.id y (fun L hL => done_lt hfield hsorted L hL))
    rw [hrun'']
    dsimp only
    apply ih (done ++ [line]) (by rw [hfield, List.append_assoc]; rfl) s'' hbug''
      hcount'' hE'' hF''
    intro Lm hLm jj hjj
    rw [List.getLast?_concat] at hLm
    cases hLm
    exact hK'' jj hjj

theorem expectedEntryNP_eq_nil_of_not_field {bug : List Bug.Part}
    {field : List Line} {done : List Line} {x : Int} {j : Nat}
    (h : isFieldLineB field x = false) :
    expectedEntryNP bug field done x j = [] := by
  unfold expectedEntryNP
  rw [h, Bool.false_and, if_neg Bool.false_ne_true]

theorem expectedEntryNP_nodup (bug : List Bug.Part) (field : List Line)
    (done : List Line) (x : Int) (j : Nat) :
    (expectedEntryNP bug field done x j).Nodup := by
  unfold expectedEntryNP
  split
  · exact List.Nodup.filter _ (matchesList_nodup bug field x j)
  · exact List.nodup_nil

theorem expectedEntryNP_append_frame {bug : List Bug.Part} {field : List Line}
    {done rest : List Line} {line : Line}
    (hfield : field = done ++ line :: rest)
    (hsorted : (field.map Line.id).Pairwise (· < ·))
    (x : Int) (j : Nat) (hx : x ≠ line.id)
    (hchain : x + ((bug.length - 1 - j : Nat) : Int) = line.id →
      ∀ c, chainAt bug field line.id c = false) :
    expectedEntryNP bug field (done ++ [line]) x j =
      expectedEntryNP bug field done x j := by
  unfold expectedEntryNP
  rw [doneB_append_ne hx]
  by_cases hg : (isFieldLineB field x && doneB done x) = true
  · rw [hg, if_pos rfl, if_pos rfl]
    apply List.filter_congr
    intro c _
    by_cases hb : x + ((bug.length - 1 - j : Nat) : Int) = line.id
    · rw [hb, hchain hb c]
      rfl
    · rw [doneB_append_ne hb]
  · rw [Bool.not_eq_true] at hg
    rw [hg, if_neg Bool.false_ne_true, if_neg Bool.false_ne_true]

theorem expectedEntryNP_cur_nonlast {bug : List Bug.Part} {field : List Line}
    {done rest : List Line} {line : Line}
    (hfield : field = done ++ line :: rest)
    (hsorted : (field.map Line.id).Pairwise (· < ·))
    {j : Nat} (hjlt : j + 1 < bug.length)
    (hfl : isFieldLineB field line.id = true) :
    expectedEntryNP bug field (done ++ [line]) line.id j =
      matchesList bug field line.id j := by
  unfold expectedEntryNP
  rw [hfl, doneB_self, Bool.and_self, if_pos rfl]
  apply List.filter_eq_self.mpr
  intro c _
  have hgt : line.id < line.id + ((bug.length - 1 - j : Nat) : Int) := by
    have : 1 ≤ bug.length - 1 - j := by omega
    omega
  rw [doneB_append_gt hfield hsorted hgt, Bool.and_false]
  rfl

theorem expectedEntryNP_cur_bottom {bug : List Bug.Part} {field : List Line}
    {done rest : List Line} {line : Line}
    (hfield : field = done ++ line :: rest)
    (hsorted : (field.map Line.id).Pairwise (· < ·))
    (hfl : isFieldLineB field line.id = true) :
    expectedEntryNP bug field (done ++ [line]) line.id (bug.length - 1) =
      (matchesList bug field line.id (bug.length - 1)).filter
        (fun c => !(chainAt bug field line.id c)) := by
  unfold expectedEntryNP
  rw [hfl, doneB_self, Bool.and_self, if_pos rfl]
  rw [Nat.sub_self, show line.id + ((0 : Nat) : Int) = line.id by omega]
  apply List.filter_congr
  intro c _
  rw [doneB_self, Bool.and_true]

theorem expectedEntryNP_append_diag {bug : List Bug.Part} {field : List Line}
    {done rest : List Line} {line : Line}
    (hfield : field = done ++ line :: rest)
    (hsorted : (field.map Line.id).Pairwise (· < ·))
    {k : Nat} (hk1 : 1 ≤ k) (hk2 : k < bug.length)
    (hmlchain : ∀ c, chainAt bug field line.id c = true →
      c ∈ matchesList bug field line.id (bug.length - 1)) :
    expectedEntryNP bug field (done ++ [line]) (line.id - (k : Int))
        (bug.length - 1 - k) =
      (expectedEntryNP bug field done (line.id - (k : Int))
          (bug.length - 1 - k)).filter
        (fun c => !(decide (c ∈ matchesList bug field line.id (bug.length - 1)) &&
          chainAt bug field line.id c)) := by
  have hxne : line.id - (k : Int) ≠ line.id := by omega
  have hbot : line.id - (k : Int) +
      ((bug.length - 1 - (bug.length - 1 - k) : Nat) : Int) = line.id := by
    rw [show bug.length - 1 - (bug.length - 1 - k) = k by omega]
    omega
  unfold expectedEntryNP
  rw [doneB_append_ne hxne, hbot]
  by_cases hg : (isFieldLineB field (line.id - (k : Int)) &&
      doneB done (line.id - (k : Int))) = true
  · rw [hg, if_pos rfl, if_pos rfl]
    rw [doneB_self, doneB_done_line_false hfield hsorted]
    have hinner : List.filter (fun c => !(chainAt bug field line.id c && false))
        (matchesList bug field (line.id - (k : Int)) (bug.length - 1 - k)) =
        matchesList bug field (line.id - (k : Int)) (bug.length - 1 - k) :=
      List.filter_eq_self.mpr (fun a _ => by rw [Bool.and_false]; rfl)
    rw [hinner]
    apply List.filter_congr
    intro c _
    rw [Bool.and_true]
    cases hch : chainAt bug field line.id c with
    | false => rw [Bool.and_false]
    | true => rw [Bool.and_true, decide_eq_true (hmlchain c hch)]
  · rw [Bool.not_eq_true] at hg
    rw [hg, if_neg Bool.false_ne_true, if_neg Bool.false_ne_true]
    rfl

theorem expectedEntryNP_mem_diag {bug : List Bug.Part} {field : List Line}
    {done rest : List Line} {line : Line}
    (hfield : field = done ++ line :: rest)
    (hsorted : (field.map Line.id).Pairwise (· < ·))
    {k : Nat} (hk1 : 1 ≤ k) (hk2 : k < bug.length) (c : Nat) :
    c ∈ expectedEntryNP bug field done (line.id - (k : Int)) (bug.length - 1 - k) ↔
      (isFieldLineB field (line.id - (k : Int)) = true ∧
        c ∈ matchesList bug field (line.id - (k : Int)) (bug.length - 1 - k)) := by
  have hbot : line.id - (k : Int) +
      ((bug.length - 1 - (bug.length - 1 - k) : Nat) : Int) = line.id := by
    rw [show bug.length - 1 - (bug.length - 1 - k) = k by omega]
    omega
  unfold expectedEntryNP
  rw [hbot, doneB_done_line_false hfield hsorted]
  by_cases hp : isFieldLineB field (line.id - (k : Int)) = true
  · have hdb : doneB done (line.id - (k : Int)) = true :=
      doneB_of_isField_lt hfield hsorted hp (by omega)
    rw [hp, hdb, Bool.and_self, if_pos rfl]
    rw [List.filter_eq_self.mpr (fun a _ => by rw [Bool.and_false]; rfl)]
    simp [hp]
  · rw [Bool.not_eq_true] at hp
    rw [hp, Bool.false_and, if_neg Bool.false_ne_true]
    simp [hp]

theorem probes_iff_chainAt_np {bug : List Bug.Part} {field : List Line} {line : Line}
    (hne : bug ≠ []) (c : Nat)
    (hcml : c ∈ matchesList bug field line.id (bug.length - 1)) :
    (∀ k : Nat, 1 ≤ k → k < bug.length →
      (isFieldLineB field (line.id - (k : Int)) = true ∧
        c ∈ matchesList bug field (line.id - (k : Int)) (bug.length - 1 - k))) ↔
      chainAt bug field line.id c = true := by
  constructor
  · intro h
    apply chainAt_intro
    intro jj hjj
    by_cases hlast : jj = bug.length - 1
    · subst hlast
      rw [Nat.sub_self, show line.id - ((0 : Nat) : Int) = line.id by omega]
      exact (mem_matchesList bug field line.id (bug.length - 1) c).mp hcml
    · have hk1 : 1 ≤ bug.length - 1 - jj := by omega
      have hk2 : bug.length - 1 - jj < bug.length := by omega
      obtain ⟨-, hmem⟩ := h (bug.length - 1 - jj) hk1 hk2
      rw [show bug.length - 1 - (bug.length - 1 - jj) = jj by omega] at hmem
      exact (mem_matchesList bug field _ jj c).mp hmem
  · intro hch k hk1 hk2
    have hcomp := chainAt_component hch (bug.length - 1 - k) (by omega)
    rw [show bug.length - 1 - (bug.length - 1 - k) = k by omega] at hcomp
    exact ⟨rowMatchedAt_isFieldLine hcomp,
      (mem_matchesList bug field _ _ c).mpr hcomp⟩

/-- The part loop of the disabled-pruning engine on one field line:
every part is evaluated, and exactly the occurrences with bottom row on
that line are counted. -/
theorem processParts_np_inv {bug : List Bug.Part} {field : List Line}
    (hn : bug.map Bug.Part.id = (List.range bug.length).map Int.ofNat)
    (hne : bug ≠ [])
    (hpat : ∀ j : Nat, j < bug.length → (rowPattern bug j).isSome = true)
    (hsorted : (field.map Line.id).Pairwise (· < ·))
    {done rest : List Line} {line : Line}
    (hfield : field = done ++ line :: rest) :
    ∀ (suffix : List Bug.Part) (j : Nat), bug.drop j = suffix → j < bug.length →
    ∀ s : BugFinder, s.bug = bug →
      s.bug_count = doneCount bug field done →
      (∀ (x : Int) (jj : Nat), jj < bug.length → x ≠ line.id →
        getEntry s.bug_part_matches x ↑jj = expectedEntryNP bug field done x jj) →
      (∀ x y : Int, x ≠ line.id → (∀ L ∈ done, L.id < x) →
        s.bug_part_matches x y = none) →
      (∀ jj : Nat, jj < j → getEntry s.bug_part_matches line.id ↑jj =
        expectedEntryNP bug field (done ++ [line]) line.id jj) →
      (∀ y : Int, (j : Int) ≤ y → s.bug_part_matches line.id y = none) →
      ∃ s', processPartsNoPruning line suffix s = .ok s' ∧
        s'.bug = bug ∧
        s'.bug_count = doneCount bug field (done ++ [line]) ∧
        (∀ (x : Int) (jj : Nat), jj < bug.length →
          getEntry s'.bug_part_matches x ↑jj =
            expectedEntryNP bug field (done ++ [line]) x jj) ∧
        (∀ x y : Int, (∀ L ∈ done ++ [line], L.id < x) →
          s'.bug_part_matches x y = none) := by
  intro suffix
  induction suffix with
  | nil =>
    intro j hdrop hjlt
    rw [List.drop_eq_nil_iff_le] at hdrop
    omega
  | cons bp tail ih =>
    intro j hdrop hjlt s hsbug hcount hEold hF hLent hLnone
    obtain ⟨-, hget, hdroptail⟩ := drop_facts hdrop
    have hid : bp.id = (j : Int) := get?_id_of_contig hn hget
    have hlinemem : line ∈ field := by
      rw [hfield]
      exact List.mem_append_right _ (List.mem_cons_self _ _)
    have hft : fieldText field line.id = some line.pattern :=
      fieldText_of_mem hsorted hlinemem
    have hfl : isFieldLineB field line.id = true := by
      unfold isFieldLineB
      rw [hft]
      rfl
    have hrowp : rowPattern bug j = bp.pattern := by
      unfold rowPattern
      rw [hget]
      rfl
    have hpj := hpat j hjlt
    rw [hrowp] at hpj
    obtain ⟨⟨a, cs⟩, hpatj⟩ := Option.isSome_iff_exists.mp hpj
    have hmleq : matchesList bug field line.id j = finditer a cs line.pattern :=
      matchesList_eq (by rw [hrowp]; exact hpatj) hft
    have hchainml : ∀ c, chainAt bug field line.id c = true →
        c ∈ matchesList bug field line.id (bug.length - 1) := by
      intro c hch
      apply (mem_matchesList bug field line.id (bug.length - 1) c).mpr
      have := chainAt_component hch (bug.length - 1) (by omega)
      rwa [Nat.sub_self, show line.id - ((0 : Nat) : Int) = line.id by omega] at this
    have hfind : find_bug_part_and_bugs_in_landscape_line s bp line =
        processMatches bp line (matchesList bug field line.id j) s := by
      unfold find_bug_part_and_bugs_in_landscape_line
      rw [hpatj]
      dsimp only
      rw [hmleq]
    rw [processPartsNoPruning, hfind]
    by_cases hlast : j + 1 < bug.length
    · -- non-bottom part
      have hbpne : bp.id ≠ ((bug.length - 1 : Nat) : Int) := by
        rw [hid]
        intro hcon
        have : j = bug.length - 1 := by exact_mod_cast hcon
        omega
      obtain ⟨s2, hrun2, hbug2, hcount2, hent2, hkey2⟩ :=
        processMatches_nonlast hn bp line hbpne (matchesList bug field line.id j) s hsbug
      rw [hrun2]
      dsimp only
      have hold0 : s.bug_part_matches line.id ((j : Nat) : Int) = none :=
        hLnone ↑j (le_refl _)
      apply ih (j + 1) hdroptail hlast s2 hbug2 (by rw [hcount2, hcount])
      · intro x jj hjj hx
        rw [hent2 x ↑jj, if_neg (by rintro ⟨h, -⟩; exact hx h)]
        exact hEold x jj hjj hx
      · intro x y hx hdones
        apply option_eq_none_of_not_isSome
        intro h
        rcases (hkey2 x y).mp h with ho | ⟨hxx, -, -⟩
        · rw [hF x y hx hdones] at ho
          exact absurd ho (by simp)
        · exact hx hxx
      · intro jj hjj
        rcases Nat.lt_succ_iff_lt_or_eq.mp hjj with h | rfl
        · have hcne : ((jj : Nat) : Int) ≠ bp.id := by
            rw [hid]
            intro hcon
            omega
          rw [hent2 line.id ↑jj, if_neg (by rintro ⟨-, hcc⟩; exact hcne hcc)]
          exact hLent jj h
        · rw [hent2 line.id ↑jj, if_pos ⟨rfl, hid.symm⟩, getEntry_of_none hold0,
            List.nil_append]
          exact (expectedEntryNP_cur_nonlast hfield hsorted hlast hfl).symm
      · intro y hy
        apply option_eq_none_of_not_isSome
        intro h
        rcases (hkey2 line.id y).mp h with ho | ⟨-, hyy, -⟩
        · rw [hLnone y (by push_cast at hy ⊢; omega)] at ho
          exact absurd ho (by simp)
        · rw [hid] at hyy
          push_cast at hy
          omega
    · -- bottom part
      have hjn : j = bug.length - 1 := by omega
      subst hjn
      have htail : tail = [] := by
        rw [← hdroptail]
        exact List.drop_eq_nil_of_le (by omega)
      subst htail
      have hidb : bp.id = ((bug.length - 1 : Nat) : Int) := hid
      obtain ⟨s', hrun', hbug', hcount', hbot', hupper', hframe', hfuture', hkeys'⟩ :=
        processMatches_bottom hn hne bp line hidb
          (fun c => chainAt bug field line.id c)
          (matchesList bug field line.id (bug.length - 1)) s hsbug
          (matchesList_nodup bug field line.id (bug.length - 1))
          (by
            intro c hc
            rw [hidb, getEntry_of_none (hLnone ↑(bug.length - 1) (le_refl _))]
            exact List.not_mem_nil c)
          (by
            intro c hc
            rw [← probes_iff_chainAt_np hne c hc]
            constructor
            · intro h k h1 h2
              have := h k h1 h2
              rw [hEold (line.id - (k : Int)) (bug.length - 1 - k) (by omega)
                (by omega)] at this
              exact (expectedEntryNP_mem_diag hfield hsorted h1 h2 c).mp this
            · intro h k h1 h2
              rw [hEold (line.id - (k : Int)) (bug.length - 1 - k) (by omega)
                (by omega)]
              exact (expectedEntryNP_mem_diag hfield hsorted h1 h2 c).mpr (h k h1 h2)
          )
          (by
            intro c hc k h1 h2
            rw [hEold (line.id - (k : Int)) (bug.length - 1 - k) (by omega) (by omega)]
            exact List.nodup_iff_count_le_one.mp
              (expectedEntryNP_nodup bug field done _ _) c)
      rw [hrun']
      dsimp only
      rw [show processPartsNoPruning line [] s' = .ok s' from rfl]
      have hmlchain2 : (matchesList bug field line.id (bug.length - 1)).filter
          (fun c => chainAt bug field line.id c) =
          (List.range line.pattern.length).filter
            (fun c => chainAt bug field line.id c) :=
        ml_filter_chain (by rw [hrowp]; exact hpatj) hft
      refine ⟨s', rfl, hbug', ?_, ?_, ?_⟩
      · rw [hcount', hcount, doneCount_append]
        congr 1
        rw [← hmlchain2]
      · intro x jj hjj
        by_cases hx : x = line.id
        · subst hx
          by_cases hjb : jj = bug.length - 1
          · rw [hjb, show ((bug.length - 1 : Nat) : Int) = bp.id from hidb.symm, hbot',
              getEntry_of_none (hLnone bp.id (by rw [hidb])), List.nil_append]
            rw [expectedEntryNP_cur_bottom hfield hsorted hfl]
          · rw [hframe' line.id ↑jj
              (by rintro ⟨-, hcc⟩; rw [hidb] at hcc; exact hjb (by exact_mod_cast hcc))
              (by rintro k h1 h2 ⟨hcc, -⟩; omega)]
            exact hLent jj (by omega)
        · by_cases hdiag : x = line.id - ((bug.length - 1 - jj : Nat) : Int) ∧
              jj < bug.length - 1
          · obtain ⟨hxeq, hjb⟩ := hdiag
            have hk1 : 1 ≤ bug.length - 1 - jj := by omega
            have hk2 : bug.length - 1 - jj < bug.length := by omega
            have hjeq : bug.length - 1 - (bug.length - 1 - jj) = jj := by omega
            have hup := hupper' (bug.length - 1 - jj) hk1 hk2
            rw [hjeq] at hup
            rw [hxeq, hup, hEold (line.id - ((bug.length - 1 - jj : Nat) : Int)) jj hjj
              (by omega)]
            have hdg := expectedEntryNP_append_diag hfield hsorted hk1 hk2 hchainml
            rw [hjeq] at hdg
            rw [hdg]
          · rw [hframe' x ↑jj (by rintro ⟨hxx, -⟩; exact hx hxx)
              (by
                rintro k h1 h2 ⟨hxx, hcc⟩
                have hjx : jj = bug.length - 1 - k := by exact_mod_cast hcc
                apply hdiag
                constructor
                · rw [hxx, hjx, show bug.length - 1 - (bug.length - 1 - k) = k by omega]
                · omega)]
            rw [hEold x jj hjj hx]
            rw [expectedEntryNP_append_frame hfield hsorted x jj hx]
            intro hb
            exfalso
            apply hdiag
            have hjb : jj < bug.length - 1 := by
              by_contra hc
              have : jj = bug.length - 1 := by omega
              rw [this, Nat.sub_self] at hb
              apply hx
              omega
            exact ⟨by omega, hjb⟩
      · intro x y hall
        have hgt : line.id < x := hall line (List.mem_append_right _ (by simp))
        rw [hfuture' x y hgt]
        exact hF x y (by omega) (fun L hL => hall L (List.mem_append_left _ hL))

/-- The line loop of the disabled-pruning engine accumulates the ideal
count. -/
theorem processLines_np_inv {bug : List Bug.Part} {field : List Line}
    (hn : bug.map Bug.Part.id = (List.range bug.length).map Int.ofNat)
    (hne : bug ≠ [])
    (hpat : ∀ j : Nat, j < bug.length → (rowPattern bug j).isSome = true)
    (hsorted : (field.map Line.id).Pairwise (· < ·)) :
    ∀ (todo done : List Line), field = done ++ todo →
    ∀ s : BugFinder, s.bug = bug →
      s.bug_count = doneCount bug field done →
      (∀ (x : Int) (jj : Nat), jj < bug.length →
        getEntry s.bug_part_matches x ↑jj = expectedEntryNP bug field done x jj) →
      (∀ x y : Int, (∀ L ∈ done, L.id < x) → s.bug_part_matches x y = none) →
      ∃ s', processLinesNoPruning todo s = .ok s' ∧ s'.bug = bug ∧
        s'.bug_count = doneCount bug field field := by
  intro todo
  induction todo with
  | nil =>
    intro done hfield s hsbug hcount hE hF
    rw [List.append_nil] at hfield
    subst hfield
    exact ⟨s, rfl, hsbug, hcount⟩
  | cons line rest' ih =>
    intro done hfield s hsbug hcount hE hF
    rw [processLinesNoPruning, hsbug]
    obtain ⟨s'', hrun'', hbug'', hcount'', hE'', hF''⟩ :=
      processParts_np_inv hn hne hpat hsorted hfield bug 0 (List.drop_zero bug)
        (by cases hb : bug.length with
          | zero => exact absurd (List.length_eq_zero.mp hb) hne
          | succ m => omega)
        s hsbug hcount
        (fun x jj hjj _ => hE x jj hjj) (fun x y _ hd => hF x y hd)
        (fun jj hjj => absurd hjj (Nat.not_lt_zero jj))
        (fun y _ => hF line.id y (fun L hL => done_lt hfield hsorted L hL))
    rw [hrun'']
    dsimp only
    exact ih (done ++ [line]) (by rw [hfield, List.append_assoc]; rfl) s'' hbug''
      hcount'' hE'' hF''

theorem expectedEntry_nil_done (bug : List Bug.Part) (field : List Line)
    (x : Int) (j : Nat) : expectedEntry bug field [] x j = [] := by
  unfold expectedEntry
  rw [show doneB [] x = false from rfl, Bool.and_false, if_neg Bool.false_ne_true]

theorem expectedEntryNP_nil_done (bug : List Bug.Part) (field : List Line)
    (x : Int) (j : Nat) : expectedEntryNP bug field [] x j = [] := by
  unfold expectedEntryNP
  rw [show doneB [] x = false from rfl, Bool.and_false, if_neg Bool.false_ne_true]

/-- A full pruned run on a contiguous-id shape: success, the ideal
count, and the fully retired table. -/
theorem find_bugs_pruned_run {bug : List Bug.Part} {field : List Line}
    (hn : bug.map Bug.Part.id = (List.range bug.length).map Int.ofNat)
    (hne : bug ≠ [])
    (hpat : ∀ j : Nat, j < bug.length → (rowPattern bug j).isSome = true)
    (hsorted : (field.map Line.id).Pairwise (· < ·))
    (h0 : ∀ L ∈ field, 0 ≤ L.id) :
    ∃ s', find_bugs_in_landscape bug field = .ok s' ∧ s'.bug = bug ∧
      s'.bug_count = idealCount bug field ∧
      (∀ (x : Int) (jj : Nat), jj < bug.length →
        getEntry s'.bug_part_matches x ↑jj = expectedEntry bug field field x jj) := by
  obtain ⟨s', hrun, hbug, hcount, hE⟩ :=
    processLines_pruned_inv hn hne hpat hsorted h0 field [] (List.nil_append field).symm
      { bug := bug, bug_part_matches := fun _ _ => none, bug_count := 0 }
      rfl rfl
      (fun x jj _ => by
        rw [expectedEntry_nil_done]
        rfl)
      (fun x y _ => rfl)
      (fun Lm h => absurd h (by simp))
  exact ⟨s', hrun, hbug, by rw [hcount, idealCount_eq_doneCount], hE⟩

/-- A full disabled-pruning run on a contiguous-id shape: success and
the ideal count. -/
theorem find_bugs_np_run {bug : List Bug.Part} {field : List Line}
    (hn : bug.map Bug.Part.id = (List.range bug.length).map Int.ofNat)
    (hne : bug ≠ [])
    (hpat : ∀ j : Nat, j < bug.length → (rowPattern bug j).isSome = true)
    (hsorted : (field.map Line.id).Pairwise (· < ·)) :
    ∃ s', find_bugs_in_landscape_no_pruning bug field = .ok s' ∧ s'.bug = bug ∧
      s'.bug_count = idealCount bug field := by
  obtain ⟨s', hrun, hbug, hcount⟩ :=
    processLines_np_inv hn hne hpat hsorted field [] (List.nil_append field).symm
      { bug := bug, bug_part_matches := fun _ _ => none, bug_count := 0 }
      rfl rfl
      (fun x jj _ => by
        rw [expectedEntryNP_nil_done]
        rfl)
      (fun x y _ => rfl)
  exact ⟨s', hrun, hbug, by rw [hcount, idealCount_eq_doneCount]⟩

/-- The contiguity and pattern facts for a shape read from rows with no
blank row, and the field facts for any read landscape. -/
theorem read_bug_contig {rows : List (List Char)}
    (hrows : ∀ r ∈ rows, ¬(rstrip r).isEmpty) :
    (read_bug rows).map Bug.Part.id =
      (List.range (read_bug rows).length).map Int.ofNat ∧
    ((rows ≠ []) → read_bug rows ≠ []) ∧
    (∀ j : Nat, j < (read_bug rows).length →
      (rowPattern (read_bug rows) j).isSome = true) := by
  have hkept := reader_all_kept rows hrows 0
  have hmap : (read_bug rows).map Bug.Part.id =
      (List.range rows.length).map Int.ofNat := by
    rw [read_bug_map_id]
    unfold reader
    rw [show rows.enum = rows.enumFrom 0 from rfl, hkept, List.range_eq_range']
  have hlen : (read_bug rows).length = rows.length := by
    have := congrArg List.length hmap
    simpa using this
  refine ⟨by rw [hmap, hlen], ?_, ?_⟩
  · intro hne hcon
    rw [hcon] at hlen
    exact hne (List.length_eq_zero.mp hlen.symm)
  · intro j hj
    unfold rowPattern
    cases hg : (read_bug rows).get? j with
    | none =>
      rw [List.get?_eq_none] at hg
      omega
    | some p =>
      have hp := read_bug_pattern_isSome rows p (List.get?_mem hg)
      simpa using hp

theorem reader_sorted (ls : List (List Char)) :
    ((reader ls).map Line.id).Pairwise (· < ·) :=
  List.chain'_iff_pairwise.mp (reader_ids_chain ls)

theorem doneB_field_of_isField {field : List Line} {x : Int}
    (h : isFieldLineB field x = true) : doneB field x = true := by
  obtain ⟨L, hL, rfl⟩ := isFieldLineB_mem h
  exact (doneB_iff field L.id).mpr ⟨L, hL, rfl⟩

theorem mem_expectedEntry_full {bug : List Bug.Part} {field : List Line}
    (hne : bug ≠ []) (x : Int) (jj : Nat) (c : Nat) :
    c ∈ expectedEntry bug field field x jj ↔
      (processedCF bug field x jj = true ∧ c ∈ matchesList bug field x jj ∧
        chainAt bug field (x + ((bug.length - 1 - jj : Nat) : Int)) c = false) := by
  have hlen : 0 < bug.length := List.length_pos.mpr hne
  unfold expectedEntry
  by_cases hp : processedCF bug field x jj = true
  · have hdb : doneB field x = true :=
      doneB_field_of_isField (isFieldLineB_of_processedCF hp)
    rw [if_pos (show (processedCF bug field x jj && doneB field x) = true by
      rw [hp, hdb]; rfl)]
    rw [List.mem_filter]
    constructor
    · rintro ⟨hm, hpred⟩
      refine ⟨hp, hm, ?_⟩
      cases hch : chainAt bug field (x + ((bug.length - 1 - jj : Nat) : Int)) c with
      | false => rfl
      | true =>
        have hbf : isFieldLineB field
            (x + ((bug.length - 1 - jj : Nat) : Int)) = true := by
          have hcomp := chainAt_component hch (bug.length - 1) (by omega)
          rw [Nat.sub_self,
            show x + ((bug.length - 1 - jj : Nat) : Int) - ((0 : Nat) : Int) =
              x + ((bug.length - 1 - jj : Nat) : Int) by omega] at hcomp
          exact rowMatchedAt_isFieldLine hcomp
        rw [hch, doneB_field_of_isField hbf] at hpred
        exact absurd hpred (by simp)
    · rintro ⟨-, hm, hch⟩
      exact ⟨hm, by rw [hch, Bool.false_and]; rfl⟩
  · rw [Bool.not_eq_true] at hp
    rw [if_neg (show ¬(processedCF bug field x jj && doneB field x) = true by
      rw [hp, Bool.false_and]; exact Bool.false_ne_true)]
    simp [hp]

/-- C1 counterexample: on the shape read from the rows "a", "", "b" (the
reader omits the blank middle row, leaving the gapped part ids 0 and 2)
and the field "a"/"b", the pruned engine reports 0 occurrences while the
engine with both pruning rules disabled reports the actual occurrence:
pruning rule 1 reads the inner key id-1 of a part, which for gapped ids
is never written, so the bottom part is always skipped. -/
theorem c1_counterexample :
    bugCountResult [['a'], [], ['b']] [['a'], ['b']] = .ok 0 ∧
      bugCountResultNoPruning [['a'], [], ['b']] [['a'], ['b']] = .ok 1 :=
  ⟨rfl, rfl⟩

/-- C1 (amended): for every shape whose source rows are all non-blank —
so the reader keeps every row and the part ids are contiguous from 0 —
and every field, the engine with both pruning rules disabled produces
the same final occurrence count as find_bugs_in_landscape with them
enabled (both equal the number of (line, column) pairs carrying a full
occurrence); the rules then affect only the amount of work done.  When a
blank row gives the shape gapped part ids, the two counts can differ. -/
theorem c1_pruning_equivalence_for_contiguous_shapes
    (bugRows landscapeRows : List (List Char))
    (hrows : ∀ r ∈ bugRows, ¬(rstrip r).isEmpty) (hne : bugRows ≠ []) :
    ∃ c : Nat, bugCountResult bugRows landscapeRows = .ok c ∧
      bugCountResultNoPruning bugRows landscapeRows = .ok c := by
  obtain ⟨hn, hnef, hpat⟩ := read_bug_contig hrows
  obtain ⟨s1, h1, -, hc1, -⟩ := find_bugs_pruned_run hn (hnef hne) hpat
    (reader_sorted landscapeRows) (reader_id_nonneg landscapeRows)
  obtain ⟨s2, h2, -, hc2⟩ := find_bugs_np_run hn (hnef hne) hpat
    (reader_sorted landscapeRows)
  refine ⟨idealCount (read_bug bugRows) (reader landscapeRows), ?_, ?_⟩
  · unfold bugCountResult
    rw [h1]
    rw [show (Except.ok s1 : Except EngineError BugFinder).map BugFinder.bug_count =
      .ok s1.bug_count from rfl, hc1]
  · unfold bugCountResultNoPruning
    rw [h2]
    rw [show (Except.ok s2 : Except EngineError BugFinder).map BugFinder.bug_count =
      .ok s2.bug_count from rfl, hc2]

/-- C1 witness: the two-row shape "a"/"b" on the field a,b,a,b — both
engines report the same count. -/
theorem c1_witness :
    ∃ c : Nat, bugCountResult [['a'], ['b']] [['a'], ['b'], ['a'], ['b']] = .ok c ∧
      bugCountResultNoPruning [['a'], ['b']] [['a'], ['b'], ['a'], ['b']] = .ok c :=
  c1_pruning_equivalence_for_contiguous_shapes [['a'], ['b']]
    [['a'], ['b'], ['a'], ['b']] (by decide) (by decide)

/-- C4 counterexample: on the shape read from the rows "", "a", "b"
(part ids 1 and 2 after the reader omits the blank first row, n = 2) and
the field "a"/"b", one occurrence is counted with bottom line L = 1 and
column c = 0, yet the run never touches the claimed cell
(L - 0, n - 1) = (1, 1): that inner key is absent at the end, while the
cells actually retired are keyed by the part ids, (1, 2) and (0, 1),
both left holding an empty list.  The consumed cells are thus not the
(L - k, n - 1 - k) cells when ids are gapped. -/
theorem c4_counterexample :
    bugCountResult [[], ['a'], ['b']] [['a'], ['b']] = .ok 1 ∧
      (find_bugs_in_landscape (read_bug [[], ['a'], ['b']])
          (reader [['a'], ['b']])).map
        (fun s => (s.bug_part_matches 1 1, s.bug_part_matches 0 1,
          s.bug_part_matches 1 2)) = .ok (none, some [], some []) :=
  ⟨rfl, rfl⟩

/-- C4 (amended): for every shape with contiguous part ids (all source
rows non-blank) and every field, the pruned run succeeds and ends with:
a column c is still registered at cell (x, j) iff part j was evaluated
on line x, matched there, and the cell belongs to no full occurrence
(whose bottom line is x + (n-1-j)) — so each counted occurrence's n
cells (L-k, n-1-k, c) are all removed, every other registered cell is
left in place, and the final count equals the number of distinct
(line, column) occurrence pairs, each counted once: no set of cells is
double-counted.  With gapped ids the removed cells are keyed by part ids
instead. -/
theorem c4_retirement_exact_for_contiguous_shapes
    (bugRows landscapeRows : List (List Char))
    (hrows : ∀ r ∈ bugRows, ¬(rstrip r).isEmpty) (hne : bugRows ≠ []) :
    ∃ s, find_bugs_in_landscape (read_bug bugRows) (reader landscapeRows) = .ok s ∧
      s.bug_count = idealCount (read_bug bugRows) (reader landscapeRows) ∧
      (∀ (x : Int) (jj : Nat), jj < (read_bug bugRows).length → ∀ c : Nat,
        (c ∈ getEntry s.bug_part_matches x ↑jj ↔
          (processedCF (read_bug bugRows) (reader landscapeRows) x jj = true ∧
            c ∈ matchesList (read_bug bugRows) (reader landscapeRows) x jj ∧
            chainAt (read_bug bugRows) (reader landscapeRows)
              (x + (((read_bug bugRows).length - 1 - jj : Nat) : Int)) c = false))) := by
  obtain ⟨hn, hnef, hpat⟩ := read_bug_contig hrows
  obtain ⟨s, hrun, -, hcount, hE⟩ := find_bugs_pruned_run hn (hnef hne) hpat
    (reader_sorted landscapeRows) (reader_id_nonneg landscapeRows)
  refine ⟨s, hrun, hcount, ?_⟩
  intro x jj hjj c
  rw [hE x jj hjj]
  exact mem_expectedEntry_full (hnef hne) x jj c

/-- C4 witness: the contiguous two-row shape "a"/"b" on the field
a,b,a,b. -/
theorem c4_witness :
    ∃ s, find_bugs_in_landscape (read_bug [['a'], ['b']])
        (reader [['a'], ['b'], ['a'], ['b']]) = .ok s ∧
      s.bug_count = idealCount (read_bug [['a'], ['b']])
        (reader [['a'], ['b'], ['a'], ['b']]) ∧
      (∀ (x : Int) (jj : Nat), jj < (read_bug [['a'], ['b']]).length → ∀ c : Nat,
        (c ∈ getEntry s.bug_part_matches x ↑jj ↔
          (processedCF (read_bug [['a'], ['b']])
              (reader [['a'], ['b'], ['a'], ['b']]) x jj = true ∧
            c ∈ matchesList (read_bug [['a'], ['b']])
              (reader [['a'], ['b'], ['a'], ['b']]) x jj ∧
            chainAt (read_bug [['a'], ['b']]) (reader [['a'], ['b'], ['a'], ['b']])
              (x + (((read_bug [['a'], ['b']]).length - 1 - jj : Nat) : Int)) c =
              false))) :=
  c4_retirement_exact_for_contiguous_shapes [['a'], ['b']]
    [['a'], ['b'], ['a'], ['b']] (by decide) (by decide)
